import Mathlib

/-!
# Verification of the buddy-alloc crate's freelist / dispatcher / buddy design

A shallow embedding of the allocator sources:

* `src/freelist_alloc.rs` — fixed-slot freelist allocator over raw memory,
  embedded with addresses as `Nat` (`0` plays the role of the null pointer)
  and memory as a `Nat → Node` view of the intrusive list nodes.
* `src/non_threadsafe_alloc.rs` — the dispatching façade and the
  `GlobalAlloc` shim, embedded parametrically over an arbitrary buddy
  allocator implementation (the buddy region's own source file is not part
  of the sources; claims about its internals use a model taken from the
  spec instead, further below).
-/

namespace BuddyAllocProof

/-- An intrusive doubly-linked list node: two machine pointers, modelled as
addresses (`0` = null).  From `freelist_alloc.rs`, `struct Node`. -/
structure Node where
  next : Nat
  prev : Nat
deriving Repr, DecidableEq

/-- Raw memory, seen through the node overlay: the node record that would be
read back from any given byte address. -/
def Mem : Type := Nat → Node

/-- Write only the `next` field of the node at address `a`. -/
def writeNext (m : Mem) (a v : Nat) : Mem :=
  fun x => if x = a then { next := v, prev := (m a).prev } else m x

/-- Write only the `prev` field of the node at address `a`. -/
def writePrev (m : Mem) (a v : Nat) : Mem :=
  fun x => if x = a then { next := (m a).next, prev := v } else m x

/-- Write a whole node at address `a` (`p.write_unaligned(n_list)` in the
source). -/
def writeNode (m : Mem) (a : Nat) (nd : Node) : Mem :=
  fun x => if x = a then nd else m x

namespace Node

/-- `Node::init`: make the node at `list` a self-cycle. -/
def init (m : Mem) (list : Nat) : Mem :=
  writeNode m list { next := list, prev := list }

/-- `Node::remove`: unlink the node at `list` from its neighbours.  The two
assignments of the source happen in order, the second reading the memory
produced by the first. -/
def remove (m : Mem) (list : Nat) : Mem :=
  let m1 := writeNext m (m list).prev (m list).next
  writePrev m1 (m1 list).next (m1 list).prev

/-- `Node::pop`: take `(*list).next` off the list and return it. -/
def pop (m : Mem) (list : Nat) : Nat × Mem :=
  let n_list := (m list).next
  (n_list, remove m n_list)

/-- `Node::push`: write a fresh node at `p` and hook it in right after
`list`.  Field reads/writes follow the source's statement order: the new
node's fields are read from the original memory, the `(*(*list).next).prev`
store reads `(*list).next` after the node write. -/
def push (m : Mem) (list p : Nat) : Mem :=
  let m1 := writeNode m p { next := (m list).next, prev := list }
  let m2 := writePrev m1 (m1 list).next p
  writeNext m2 list p

/-- `Node::is_empty`: the list head is its own successor. -/
def isEmpty (m : Mem) (list : Nat) : Bool :=
  (m list).next == list

end Node

/-- `BLOCK_SIZE` from `freelist_alloc.rs`. -/
def BLOCK_SIZE : Nat := 64

/-- The freelist allocator state: the region bounds, the stored free-list
head pointer (`0` = null) and the memory overlay. -/
structure FreelistAlloc where
  base_addr : Nat
  end_addr : Nat
  free : Nat
  mem : Mem

namespace FreelistAlloc

/-- `FreelistAlloc::new` over a region `[base, base+len)` whose prior
contents are `m0`: make the first slot the sentinel self-cycle and push each
further slot. -/
def pushSlots (free : Nat) : Mem → Nat → Nat → Mem
  | m, _addr, 0 => m
  | m, addr, c + 1 => pushSlots free (Node.push m free (addr + BLOCK_SIZE)) (addr + BLOCK_SIZE) c

def new (base len : Nat) (m0 : Mem) : FreelistAlloc :=
  let nblocks := len / BLOCK_SIZE
  let m1 := Node.init m0 base
  { base_addr := base
    end_addr := base + len
    free := base
    mem := pushSlots base m1 base (nblocks - 1) }

/-- `FreelistAlloc::contains_ptr`. -/
def contains_ptr (s : FreelistAlloc) (p : Nat) : Prop :=
  s.base_addr ≤ p ∧ p < s.end_addr

instance (s : FreelistAlloc) (p : Nat) : Decidable (s.contains_ptr p) := by
  unfold contains_ptr; infer_instance

/-- `FreelistAlloc::allocate` (alignment is ignored by the source, so the
layout is represented by its size alone).  Returns the allocated pointer
(or `none` for `AllocError`) together with the updated state. -/
def allocate (s : FreelistAlloc) (nbytes : Nat) : Option Nat × FreelistAlloc :=
  if BLOCK_SIZE < nbytes ∨ s.free = 0 then (none, s)
  else
    let is_last := Node.isEmpty s.mem s.free
    let pm := Node.pop s.mem s.free
    let free' := if is_last then 0 else s.free
    (some pm.1, { s with mem := pm.2, free := free' })

/-- `FreelistAlloc::deallocate` (the layout argument is unused by the
source). -/
def deallocate (s : FreelistAlloc) (p : Nat) : FreelistAlloc :=
  if s.free = 0 then
    { s with mem := Node.init s.mem p, free := p }
  else
    { s with mem := Node.push s.mem s.free p }

end FreelistAlloc

/-- All-zero memory, used for concrete runs. -/
def zeroMem : Mem := fun _ => { next := 0, prev := 0 }

/-! ## The dispatching façade, from `non_threadsafe_alloc.rs`

The buddy region's behaviour is abstracted into `BuddyOps`: the dispatcher
only constructs it lazily, calls its `allocate` and its `deallocate`, so the
routing theorems hold for an arbitrary buddy implementation. -/

/-- The buddy region as consumed by the dispatcher: the lazily constructed
value (`BuddyAlloc::new(param)`) and its two operations. -/
structure BuddyOps (B : Type) where
  newB : B
  allocateB : B → Nat → Option Nat × B
  deallocateB : B → Nat → B

/-- `MAX_FREELIST_ALLOC_SIZE` from `non_threadsafe_alloc.rs`. -/
def MAX_FREELIST_ALLOC_SIZE : Nat := BLOCK_SIZE

/-- `NonThreadsafeAlloc`: the stored freelist construction parameters (plus
the memory contents the lazy construction will read) and the two lazily
initialized regions. -/
structure NonThreadsafeAlloc (B : Type) where
  freelist_base : Nat
  freelist_len : Nat
  freelist_mem0 : Mem
  inner_freelist_alloc : Option FreelistAlloc
  inner_buddy_alloc : Option B

namespace NonThreadsafeAlloc

/-- `NonThreadsafeAlloc::new`: both regions start uninitialized. -/
def newD {B : Type} (fbase flen : Nat) (fm : Mem) : NonThreadsafeAlloc B :=
  { freelist_base := fbase
    freelist_len := flen
    freelist_mem0 := fm
    inner_freelist_alloc := none
    inner_buddy_alloc := none }

/-- `fetch_freelist_alloc`: construct the freelist region on first use, and
hand back the region together with the state in which it is cached. -/
def fetchFreelist {B : Type} (s : NonThreadsafeAlloc B) :
    FreelistAlloc × NonThreadsafeAlloc B :=
  match s.inner_freelist_alloc with
  | some f => (f, s)
  | none =>
    let f := FreelistAlloc.new s.freelist_base s.freelist_len s.freelist_mem0
    (f, { s with inner_freelist_alloc := some f })

/-- `fetch_buddy_alloc`. -/
def fetchBuddy {B : Type} (ops : BuddyOps B) (s : NonThreadsafeAlloc B) :
    B × NonThreadsafeAlloc B :=
  match s.inner_buddy_alloc with
  | some b => (b, s)
  | none => (ops.newB, { s with inner_buddy_alloc := some ops.newB })

/-- `Allocator::allocate` on `NonThreadsafeAlloc`: buddy only when the size
exceeds `MAX_FREELIST_ALLOC_SIZE`, otherwise freelist first with buddy
fallback on error. -/
def allocate {B : Type} (ops : BuddyOps B) (s : NonThreadsafeAlloc B)
    (n : Nat) : Option Nat × NonThreadsafeAlloc B :=
  if MAX_FREELIST_ALLOC_SIZE < n then
    let bs := fetchBuddy ops s
    let rb := ops.allocateB bs.1 n
    (rb.1, { bs.2 with inner_buddy_alloc := some rb.2 })
  else
    let fs := fetchFreelist s
    let rf := fs.1.allocate n
    let s2 := { fs.2 with inner_freelist_alloc := some rf.2 }
    match rf.1 with
    | some p => (some p, s2)
    | none =>
      let bs := fetchBuddy ops s2
      let rb := ops.allocateB bs.1 n
      (rb.1, { bs.2 with inner_buddy_alloc := some rb.2 })

/-- `Allocator::deallocate` on `NonThreadsafeAlloc`: the freelist region
when it owns the pointer, the buddy region otherwise. -/
def deallocate {B : Type} (ops : BuddyOps B) (s : NonThreadsafeAlloc B)
    (p : Nat) : NonThreadsafeAlloc B :=
  let fs := fetchFreelist s
  if fs.1.contains_ptr p then
    { fs.2 with inner_freelist_alloc := some (fs.1.deallocate p) }
  else
    let bs := fetchBuddy ops fs.2
    { bs.2 with inner_buddy_alloc := some (ops.deallocateB bs.1 p) }

/-- `GlobalAlloc::alloc` on `NonThreadsafeAlloc`: the raw pointer on
success, null (`0`) on failure. -/
def allocRaw {B : Type} (ops : BuddyOps B) (s : NonThreadsafeAlloc B)
    (n : Nat) : Nat × NonThreadsafeAlloc B :=
  let rs := allocate ops s n
  match rs.1 with
  | some p => (p, rs.2)
  | none => (0, rs.2)

/-- `GlobalAlloc::dealloc` on `NonThreadsafeAlloc`: forward to `deallocate`
only for a non-null pointer. -/
def deallocRaw {B : Type} (ops : BuddyOps B) (s : NonThreadsafeAlloc B)
    (p : Nat) : NonThreadsafeAlloc B :=
  if p ≠ 0 then deallocate ops s p else s

end NonThreadsafeAlloc

/-! ## Concrete drivers and sample states used by closed runs and witnesses -/

/-- Repeatedly allocate `BLOCK_SIZE`-sized blocks from a freelist region,
recording every result (mirrors the allocation loop of
`tests/freelist_alloc.rs::test_malloc_and_free`). -/
def allocManyFL : FreelistAlloc → Nat → List (Option Nat) × FreelistAlloc
  | s, 0 => ([], s)
  | s, k + 1 =>
    let r := s.allocate BLOCK_SIZE
    let rest := allocManyFL r.2 k
    (r.1 :: rest.1, rest.2)

/-- Deallocate a list of pointers in order. -/
def deallocManyFL : FreelistAlloc → List Nat → FreelistAlloc
  | s, [] => s
  | s, p :: ps => deallocManyFL (s.deallocate p) ps

/-- A 4096-byte freelist region (64 slots) based at address 4096. -/
def sFL4096 : FreelistAlloc := FreelistAlloc.new 4096 4096 zeroMem

/-- A 128-byte freelist region (2 slots) based at address 64. -/
def sFL128 : FreelistAlloc := FreelistAlloc.new 64 128 zeroMem

/-- A trivial buddy implementation used to instantiate the parametric
dispatcher theorems at a concrete input. -/
def unitOps : BuddyOps Unit :=
  { newB := ()
    allocateB := fun b n => (some (8192 + n), b)
    deallocateB := fun b _ => b }

/-- A freshly constructed dispatcher over a 2-slot freelist region. -/
def sNTA0 : NonThreadsafeAlloc Unit := NonThreadsafeAlloc.newD 64 128 zeroMem

/-! ## Freelist region invariants -/

/-- `a` is the start address of a slot of the region `[base, base+len)`. -/
def slotOk (base len a : Nat) : Prop :=
  base ≤ a ∧ a < base + len ∧ (a - base) % BLOCK_SIZE = 0

instance (base len a : Nat) : Decidable (slotOk base len a) := by
  unfold slotOk; infer_instance

/-- Every slot's node fields point at slots. -/
def MemOk (base len : Nat) (m : Mem) : Prop :=
  ∀ a, slotOk base len a →
    slotOk base len (m a).next ∧ slotOk base len (m a).prev

/-- The same, restricted to slots at address at most `hi` (used while the
construction loop is still writing the region). -/
def MemOkOn (base len : Nat) (m : Mem) (hi : Nat) : Prop :=
  ∀ a, slotOk base len a → a ≤ hi →
    slotOk base len (m a).next ∧ slotOk base len (m a).prev

/-- The alignment invariant of a freelist allocator state. -/
def Inv (base len : Nat) (s : FreelistAlloc) : Prop :=
  s.base_addr = base ∧ s.end_addr = base + len ∧
  (s.free = 0 ∨ slotOk base len s.free) ∧ MemOk base len s.mem

/-- States reachable from construction by arbitrary allocations and by
deallocations of pointers previously returned (`R` collects every pointer
any successful allocation has returned so far). -/
inductive ReachW (base len : Nat) (m0 : Mem) : FreelistAlloc → List Nat → Prop
  | init : ReachW base len m0 (FreelistAlloc.new base len m0) []
  | alloc (s : FreelistAlloc) (R : List Nat) (n : Nat) :
      ReachW base len m0 s R →
      ReachW base len m0 (s.allocate n).2 ((s.allocate n).1.toList ++ R)
  | dealloc (s : FreelistAlloc) (R : List Nat) (p : Nat) :
      ReachW base len m0 s R → p ∈ R →
      ReachW base len m0 (s.deallocate p) R

/-- Link correctness between two consecutive nodes of a doubly-linked
list: `y` follows `x` and `x` precedes `y`. -/
def links (m : Mem) (x y : Nat) : Prop :=
  (m x).next = y ∧ (m y).prev = x

instance (m : Mem) (x y : Nat) : Decidable (links m x y) := by
  unfold links; infer_instance

/-- `L` is (the node sequence of) a well-formed circular doubly-linked
list: consecutive nodes are linked and the last node links back to the
first. -/
def cyclic (m : Mem) : List Nat → Prop
  | [] => True
  | a :: t => List.Chain' (links m) ((a :: t) ++ [a])

/-- The start addresses of all slots of the region `[base, base+len)`. -/
def allSlots (base len : Nat) : List Nat :=
  (List.range (len / BLOCK_SIZE)).map (fun i => base + BLOCK_SIZE * i)

/-- The doubly-linked-list invariant of a freelist allocator state under
live-pointer discipline: some node list `L` realizes the free list as a
well-formed cycle headed at the stored free pointer (empty exactly when
that pointer is null), and `L` together with the live pointers is a
permutation of all slots of the region. -/
def InvL (base len : Nat) (s : FreelistAlloc) (live : List Nat) : Prop :=
  s.base_addr = base ∧ s.end_addr = base + len ∧
  ∃ L : List Nat,
    cyclic s.mem L ∧ (s.free = 0 → L = []) ∧
    (s.free ≠ 0 → L.head? = some s.free) ∧
    (L ++ live).Perm (allSlots base len)

/-- States reachable from construction when every deallocation targets a
live pointer (previously returned and not deallocated since); `live`
collects the currently live pointers. -/
inductive ReachL (base len : Nat) (m0 : Mem) : FreelistAlloc → List Nat → Prop
  | init : ReachL base len m0 (FreelistAlloc.new base len m0) []
  | alloc (s : FreelistAlloc) (live : List Nat) (n : Nat) :
      ReachL base len m0 s live →
      ReachL base len m0 (s.allocate n).2 ((s.allocate n).1.toList ++ live)
  | dealloc (s : FreelistAlloc) (live : List Nat) (p : Nat) :
      ReachL base len m0 s live → p ∈ live →
      ReachL base len m0 (s.deallocate p) (live.erase p)

/-- The state obtained from a fresh two-slot region by one allocation
followed by two deallocations of the same returned pointer (a double
free, allowed when deallocation may target any previously returned
pointer). -/
def sDouble : FreelistAlloc :=
  ((((FreelistAlloc.new 64 128 zeroMem).allocate 64).2.deallocate
      128).deallocate 128)

/-! ## The buddy region, modelled from the spec

`buddy_alloc.rs` itself is not among the sources (only its tests, callers
and re-exports are), so the buddy region is modelled from the spec's data
model and algorithms (§3.2, §4.1).  Free lists are index-based lists of
block indices per order, the equivalent strategy the spec itself sanctions
(§9, "a parallel index-based free list over an integer array of node
indices is an equivalent strategy"). -/

/-- Modelled from the spec: `block_size(k, leaf_size) = leaf_size · 2^k`
(§3.2, order k size; the tests call `block_size(k, leaf_size)`). -/
def block_size (k leaf : Nat) : Nat := leaf * 2 ^ k

/-- Modelled from the spec: `MIN_LEAF_SIZE_ALIGN` is the power-of-two size
that holds two machine pointers (§6.3) — 16 bytes on a 64-bit machine. -/
def MIN_LEAF_SIZE_ALIGN : Nat := 16

/-- Pointwise update of a two-index bit array. -/
def updB (f : Nat → Nat → Bool) (k i : Nat) (v : Bool) : Nat → Nat → Bool :=
  fun k2 i2 => if k2 = k ∧ i2 = i then v else f k2 i2

/-- Pointwise update of the per-order free lists. -/
def updL (f : Nat → List Nat) (k : Nat) (l : List Nat) : Nat → List Nat :=
  fun k2 => if k2 = k then l else f k2

/-- Modelled from the spec: the buddy region state (§3.2) — top order `K`,
leaf size, start address of the managed block space, one free list of
block indices per order, the paired `alloc` bit array (one bit per buddy
pair) and the `split` bit array (orders ≥ 1). -/
structure BuddyAlloc where
  K : Nat
  leaf : Nat
  mstart : Nat
  freeL : Nat → List Nat
  allocB : Nat → Nat → Bool
  splitB : Nat → Nat → Bool

namespace BuddyAlloc

/-- Modelled from the spec: size-class selection — "compute the smallest
`k` such that `leaf_size · 2^k ≥ n`" (§4.1), computed by doubling from the
leaf size.  The loop is given `n` steps of fuel, enough whenever
`leaf ≥ 1` since the size at least doubles each step. -/
def reqKfuel : Nat → Nat → Nat → Nat
  | 0, _, _ => 0
  | fuel + 1, size, n => if n ≤ size then 0 else reqKfuel fuel (size * 2) n + 1

def reqK (leaf n : Nat) : Nat := reqKfuel n leaf n

/-- Modelled from the spec: walk upward from the required order to the
smallest order `j ≥ k` (up to `K`) whose free list is non-empty (§4.1
allocation step 1). -/
def findJ (s : BuddyAlloc) (k : Nat) : Option Nat :=
  (List.range (s.K + 1)).find? (fun j => decide (k ≤ j ∧ s.freeL j ≠ []))

/-- Modelled from the spec: allocation step 2 (§4.1) — starting from the
popped block at order `j = k + fuel`, repeatedly flip the block's pair
`alloc` bit, set its `split` bit, push the right half onto the next lower
free list and continue with the left half, until order `k` is reached.
Returns the final state and the block index at order `k`. -/
def splitLoop : BuddyAlloc → Nat → Nat → Nat → BuddyAlloc × Nat
  | s, _k, b, 0 => (s, b)
  | s, k, b, m + 1 =>
    let i := k + m + 1
    let s2 : BuddyAlloc :=
      { s with
        allocB := updB s.allocB i (b / 2) (!(s.allocB i (b / 2)))
        splitB := updB s.splitB i b true
        freeL := updL s.freeL (i - 1) ((2 * b + 1) :: s.freeL (i - 1)) }
    splitLoop s2 k (2 * b) m

/-- Modelled from the spec: the allocation algorithm (§4.1) — derive the
order, fail if it exceeds `K` or no free list at order ≥ it is non-empty,
otherwise pop a block, split down to the required order, flip the final
pair bit and return the block's address. -/
def allocate (s : BuddyAlloc) (n : Nat) : Option Nat × BuddyAlloc :=
  let k := reqK s.leaf n
  if s.K < k then (none, s)
  else
    match findJ s k with
    | none => (none, s)
    | some j =>
      match s.freeL j with
      | [] => (none, s)
      | b :: rest =>
        let s1 : BuddyAlloc := { s with freeL := updL s.freeL j rest }
        let sb := splitLoop s1 k b (j - k)
        let s2 : BuddyAlloc :=
          { sb.1 with
            allocB := updB sb.1.allocB k (sb.2 / 2)
              (!(sb.1.allocB k (sb.2 / 2))) }
        (some (s.mstart + sb.2 * (s.leaf * 2 ^ k)), s2)

/-- The buddy of block `b`: the sibling with the adjacent index. -/
def buddyOf (b : Nat) : Nat := if b % 2 = 0 then b + 1 else b - 1

/-- Modelled from the spec: the deallocation algorithm (§4.1) — flip the
pair's `alloc` bit at the derived order; while the flipped bit is 0 and the
order is below `K` (`fuel = K - k`), remove the buddy from its free list,
clear the parent's `split` bit and continue with the parent; finally push
the (coalesced) block onto its order's free list. -/
def freeLoop : BuddyAlloc → Nat → Nat → Nat → BuddyAlloc
  | s, k, b, 0 =>
    let s2 : BuddyAlloc :=
      { s with allocB := updB s.allocB k (b / 2) (!(s.allocB k (b / 2))) }
    { s2 with freeL := updL s2.freeL k (b :: s2.freeL k) }
  | s, k, b, m + 1 =>
    let s2 : BuddyAlloc :=
      { s with allocB := updB s.allocB k (b / 2) (!(s.allocB k (b / 2))) }
    if s2.allocB k (b / 2) = false then
      let s3 : BuddyAlloc :=
        { s2 with
          freeL := updL s2.freeL k ((s2.freeL k).erase (buddyOf b))
          splitB := updB s2.splitB (k + 1) (b / 2) false }
      freeLoop s3 (k + 1) (b / 2) m
    else
      { s2 with freeL := updL s2.freeL k (b :: s2.freeL k) }

/-- Modelled from the spec: deallocation re-derives the order from the
stored layout "exactly as allocation did" and the block index from the
pointer, then merges upward (§4.1). -/
def deallocate (s : BuddyAlloc) (p n : Nat) : BuddyAlloc :=
  let k := reqK s.leaf n
  freeLoop s k ((p - s.mstart) / (s.leaf * 2 ^ k)) (s.K - k)

/-- Modelled from the spec: `available_bytes` is the sum of byte capacities
of blocks currently on all free lists (§4.1). -/
def available_bytes (s : BuddyAlloc) : Nat :=
  ((List.range (s.K + 1)).map
    (fun k => (s.freeL k).length * (s.leaf * 2 ^ k))).sum

/-- Round `x` up to a multiple of `leaf`. -/
def roundUpL (x leaf : Nat) : Nat := (x + leaf - 1) / leaf * leaf

/-- Modelled from the spec: the metadata bytes for top order `K` (§4.1
layout) — one two-pointer sentinel per order 0..K, the `alloc` bitmap of
`⌈2^(K-k)/2⌉` bits per order, and the `split` bitmap of `2^(K-k)` bits per
order k ≥ 1, each per-order bitmap rounded up to whole bytes. -/
def metaBytes (K : Nat) : Nat :=
  (K + 1) * 16
    + ((List.range (K + 1)).map (fun k => ((2 ^ (K - k) + 1) / 2 + 7) / 8)).sum
    + ((List.range K).map (fun i => (2 ^ (K - (i + 1)) + 7) / 8)).sum

/-- Base-2 logarithm by halving, fuel-bounded (`fuel ≥ n` suffices). -/
def log2fuel : Nat → Nat → Nat
  | 0, _ => 0
  | fuel + 1, n => if n ≤ 1 then 0 else log2fuel fuel (n / 2) + 1

/-- Modelled from the spec: the managed block space starts at the metadata
end rounded up to `leaf` and its size is `leaf · 2^K` "for the largest K
that fits" (§4.1).  Any fitting `K` satisfies `leaf · 2^K ≤ len`, so the
base-2 logarithm of `len / leaf` bounds the search. -/
def maxK (base len leaf : Nat) : Nat :=
  Nat.findGreatest
    (fun K => roundUpL (base + metaBytes K) leaf + leaf * 2 ^ K ≤ base + len)
    (log2fuel len (len / leaf) + 1)

/-- Modelled from the spec: construction — all bitmaps zero, all free lists
empty except the top order's, which holds the single top block placed at
the aligned start of the managed space (§4.1). -/
def new (base len leaf : Nat) : BuddyAlloc :=
  let K := maxK base len leaf
  { K := K
    leaf := leaf
    mstart := roundUpL (base + metaBytes K) leaf
    freeL := fun k => if k = K then [0] else []
    allocB := fun _ _ => false
    splitB := fun _ _ => false }

end BuddyAlloc

/-- `first_down_k` from `tests/buddy_alloc.rs` (present in the sources):
the largest `k` with `LEAF_SIZE · 2^k < n`, or `some k` when
`LEAF_SIZE · 2^k = n` exactly, `none` when even `k = 0` is too big.  The
source's `while size < n` loop is given `n` steps of fuel, enough since
`size` at least doubles from `16` each step. -/
def fdkLoop : Nat → Nat → Nat → Nat → Nat × Nat
  | 0, k, size, _n => (k, size)
  | fuel + 1, k, size, n =>
    if size < n then fdkLoop fuel (k + 1) (size * 2) n else (k, size)

def first_down_k (n : Nat) : Option Nat :=
  let ks := fdkLoop n 0 MIN_LEAF_SIZE_ALIGN n
  if ks.2 ≠ n then (if ks.1 = 0 then none else some (ks.1 - 1))
  else some ks.1

/-- The allocation loop of `tests/buddy_alloc.rs::test_multiple_malloc`
(spec §8 scenario 2): repeatedly allocate the largest power-of-two block of
size at most `available_bytes() - 1`, counting successes until the first
failure. -/
def multipleMallocLoop : BuddyAlloc → Nat → Nat × BuddyAlloc
  | s, 0 => (0, s)
  | s, fuel + 1 =>
    let k := (first_down_k (s.available_bytes - 1)).getD 0
    let r := s.allocate (block_size k MIN_LEAF_SIZE_ALIGN)
    match r.1 with
    | none => (0, r.2)
    | some _ =>
      let rest := multipleMallocLoop r.2 fuel
      (rest.1 + 1, rest.2)

/-- The fresh 1 MiB / 16 B buddy region of the spec's concrete scenarios. -/
def buddy1M : BuddyAlloc := BuddyAlloc.new 0 1048576 16

/-! ## Well-formedness of buddy states

The invariants below follow the spec's §3.2 invariants: a block is
addressable only when every strict ancestor is split, a block is on its
order's free list iff it is free and exposed, and each pair's `alloc` bit
is the XOR of its two blocks' in-use states. -/

namespace BuddyAlloc

/-- Block `(k, i)`'s strict ancestors up to the top order are all split:
the block is *exposed* (addressable). -/
def exposed (s : BuddyAlloc) (k i : Nat) : Prop :=
  ∀ m, k < m → m ≤ s.K → s.splitB m (i / 2 ^ (m - k)) = true

/-- Block `(k, i)` is *in use* — exposed and not free — in the sense of the
spec's paired `alloc` encoding (out-of-range blocks are not in use). -/
def inUse (s : BuddyAlloc) (k i : Nat) : Prop :=
  i < 2 ^ (s.K - k) ∧ exposed s k i ∧ i ∉ s.freeL k

/-- The block `(order, index)` a live allocation `(address, size)` denotes,
re-derived exactly as `deallocate` does. -/
def blockOf (s : BuddyAlloc) (pn : Nat × Nat) : Nat × Nat :=
  (reqK s.leaf pn.2, (pn.1 - s.mstart) / (s.leaf * 2 ^ reqK s.leaf pn.2))

/-- A block that is exposed, unsplit and on no free list: the transient
state of the block being carried through an allocation or deallocation. -/
def pendingB (s : BuddyAlloc) (k b : Nat) : Prop :=
  k ≤ s.K ∧ b < 2 ^ (s.K - k) ∧ exposed s k b ∧ s.splitB k b = false ∧
  b ∉ s.freeL k

/-- A live allocation entry is well-formed: its block is in range, its
address is the block's address, and the block is exposed, unsplit and on
no free list. -/
def liveOk (s : BuddyAlloc) (pn : Nat × Nat) : Prop :=
  (blockOf s pn).1 ≤ s.K ∧
  (blockOf s pn).2 < 2 ^ (s.K - (blockOf s pn).1) ∧
  pn.1 = s.mstart + (blockOf s pn).2 * (s.leaf * 2 ^ (blockOf s pn).1) ∧
  exposed s (blockOf s pn).1 (blockOf s pn).2 ∧
  s.splitB (blockOf s pn).1 (blockOf s pn).2 = false ∧
  (blockOf s pn).2 ∉ s.freeL (blockOf s pn).1

/-- The bookkeeping invariants shared by all buddy states. -/
structure Core (s : BuddyAlloc) : Prop where
  leafPos : 0 < s.leaf
  wover : ∀ k, s.K < k → s.freeL k = []
  wnodup : ∀ k, (s.freeL k).Nodup
  wmem : ∀ k, ∀ i ∈ s.freeL k,
    i < 2 ^ (s.K - k) ∧ exposed s k i ∧ s.splitB k i = false
  wsplit : ∀ k i, s.splitB k i = true →
    1 ≤ k ∧ k ≤ s.K ∧ i < 2 ^ (s.K - k) ∧ exposed s k i

/-- The total live-allocation capacity. -/
def liveBytes (s : BuddyAlloc) (A : List (Nat × Nat)) : Nat :=
  (A.map (fun pn => s.leaf * 2 ^ (blockOf s pn).1)).sum

/-- Full well-formedness of a buddy state with live-allocation list `A`. -/
structure BInv (s : BuddyAlloc) (A : List (Nat × Nat)) : Prop where
  core : Core s
  wbits : ∀ k q, k ≤ s.K → 2 * q < 2 ^ (s.K - k) →
    (s.allocB k q = true ↔ Xor' (inUse s k (2 * q)) (inUse s k (2 * q + 1)))
  wlive : ∀ pn ∈ A, liveOk s pn
  wdistinct : (A.map (blockOf s)).Nodup
  wavail : s.available_bytes + liveBytes s A = s.leaf * 2 ^ s.K

/-- The invariant carried through `splitLoop`: well-formed except that the
pending block's own pair bit is stale (it still holds the negation of the
pair's XOR, because the bit flip for this level has not happened yet). -/
structure SInv (s : BuddyAlloc) (A : List (Nat × Nat)) (k b : Nat) : Prop where
  core : Core s
  wbitsExc : ∀ k2 q, k2 ≤ s.K → 2 * q < 2 ^ (s.K - k2) →
    ¬(k2 = k ∧ q = b / 2) →
    (s.allocB k2 q = true ↔
      Xor' (inUse s k2 (2 * q)) (inUse s k2 (2 * q + 1)))
  wbitStale : s.allocB k (b / 2) = true ↔
    ¬ Xor' (inUse s k (2 * (b / 2))) (inUse s k (2 * (b / 2) + 1))
  wpend : pendingB s k b
  wpendA : (k, b) ∉ A.map (blockOf s)
  wlive : ∀ pn ∈ A, liveOk s pn
  wdistinct : (A.map (blockOf s)).Nodup
  wavailP : s.available_bytes + liveBytes s A + s.leaf * 2 ^ k
    = s.leaf * 2 ^ s.K

/-- The invariant carried through `freeLoop`: fully well-formed bits, with
the block being freed pending. -/
structure FInv (s : BuddyAlloc) (A : List (Nat × Nat)) (k b : Nat) : Prop where
  core : Core s
  wbits : ∀ k2 q, k2 ≤ s.K → 2 * q < 2 ^ (s.K - k2) →
    (s.allocB k2 q = true ↔
      Xor' (inUse s k2 (2 * q)) (inUse s k2 (2 * q + 1)))
  wpend : pendingB s k b
  wpendA : (k, b) ∉ A.map (blockOf s)
  wlive : ∀ pn ∈ A, liveOk s pn
  wdistinct : (A.map (blockOf s)).Nodup
  wavailP : s.available_bytes + liveBytes s A + s.leaf * 2 ^ k
    = s.leaf * 2 ^ s.K

end BuddyAlloc

/-- Buddy states reachable from construction when every deallocation
passes the address and size of a live allocation — the layout used at
allocation, as the spec requires; `A` collects the live allocations. -/
inductive ReachB (base len leaf : Nat) : BuddyAlloc → List (Nat × Nat) → Prop
  | init : ReachB base len leaf (BuddyAlloc.new base len leaf) []
  | alloc (s : BuddyAlloc) (A : List (Nat × Nat)) (n : Nat) :
      ReachB base len leaf s A →
      ReachB base len leaf (s.allocate n).2
        (((s.allocate n).1.map (fun p => (p, n))).toList ++ A)
  | dealloc (s : BuddyAlloc) (A : List (Nat × Nat)) (p n : Nat) :
      ReachB base len leaf s A → (p, n) ∈ A →
      ReachB base len leaf (s.deallocate p n) (A.erase (p, n))

-- ======================================================================
-- Theorems
-- ======================================================================

section WriteLemmas

@[simp] theorem writeNext_read_eq (m : Mem) (a v : Nat) :
    writeNext m a v a = { next := v, prev := (m a).prev } := by
  simp [writeNext]

@[simp] theorem writeNext_read_ne (m : Mem) (a v x : Nat) (h : x ≠ a) :
    writeNext m a v x = m x := by
  simp [writeNext, h]

@[simp] theorem writePrev_read_eq (m : Mem) (a v : Nat) :
    writePrev m a v a = { next := (m a).next, prev := v } := by
  simp [writePrev]

@[simp] theorem writePrev_read_ne (m : Mem) (a v x : Nat) (h : x ≠ a) :
    writePrev m a v x = m x := by
  simp [writePrev, h]

@[simp] theorem writeNode_read_eq (m : Mem) (a : Nat) (nd : Node) :
    writeNode m a nd a = nd := by
  simp [writeNode]

@[simp] theorem writeNode_read_ne (m : Mem) (a : Nat) (nd : Node) (x : Nat)
    (h : x ≠ a) : writeNode m a nd x = m x := by
  simp [writeNode, h]

end WriteLemmas

/-- **C2.** `FreelistAlloc::allocate` returns an error exactly when the
requested size exceeds `BLOCK_SIZE` or the stored free pointer is null, and
on every error return the whole allocator state (free pointer and region
memory) is unchanged. -/
theorem FreelistAlloc.allocate_error_iff (s : FreelistAlloc) (n : Nat) :
    ((s.allocate n).1 = none ↔ BLOCK_SIZE < n ∨ s.free = 0) ∧
    ((s.allocate n).1 = none → (s.allocate n).2 = s) := by
  unfold FreelistAlloc.allocate
  by_cases h : BLOCK_SIZE < n ∨ s.free = 0 <;> simp [h]

/-- Witness for C2's conditional part at a concrete input: a 65-byte
request errors and leaves the state untouched. -/
theorem FreelistAlloc.allocate_error_iff_witness :
    (sFL128.allocate 65).1 = none ∧ (sFL128.allocate 65).2 = sFL128 :=
  ⟨by decide, (FreelistAlloc.allocate_error_iff sFL128 65).2 (by decide)⟩

/-- **C9.** A zero-size request behaves exactly like any request of size
at most `BLOCK_SIZE`: the resulting state and returned pointer coincide
with those of any other small request, and it fails exactly when the free
pointer is null. -/
theorem FreelistAlloc.allocate_zero_size (s : FreelistAlloc) (n : Nat)
    (h : n ≤ BLOCK_SIZE) :
    s.allocate 0 = s.allocate n ∧ ((s.allocate 0).1 = none ↔ s.free = 0) := by
  unfold FreelistAlloc.allocate
  have h0 : ¬ BLOCK_SIZE < 0 := by omega
  have hn : ¬ BLOCK_SIZE < n := by omega
  by_cases hf : s.free = 0 <;> simp [h0, hn, hf]

/-- Witness for C9 at a concrete input. -/
theorem FreelistAlloc.allocate_zero_size_witness :
    64 ≤ BLOCK_SIZE ∧
    (sFL128.allocate 0 = sFL128.allocate 64 ∧
      ((sFL128.allocate 0).1 = none ↔ sFL128.free = 0)) :=
  ⟨by decide, FreelistAlloc.allocate_zero_size sFL128 64 (by decide)⟩

/-- **C1.** Routing of `NonThreadsafeAlloc::allocate`: requests larger than
`BLOCK_SIZE` consult only the buddy region and return its result; requests
of at most `BLOCK_SIZE` try the freelist region first and fall back to the
buddy region exactly when the freelist call errors; the dispatcher errors
iff every tier it consulted failed.  Stated for an arbitrary buddy
implementation `ops`. -/
theorem NonThreadsafeAlloc.allocate_routes {B : Type} (ops : BuddyOps B)
    (s : NonThreadsafeAlloc B) (n : Nat) :
    (MAX_FREELIST_ALLOC_SIZE < n →
      (allocate ops s n).1 = (ops.allocateB (fetchBuddy ops s).1 n).1 ∧
      (allocate ops s n).2.inner_freelist_alloc = s.inner_freelist_alloc) ∧
    (n ≤ MAX_FREELIST_ALLOC_SIZE →
      (∀ p, ((fetchFreelist s).1.allocate n).1 = some p →
        (allocate ops s n).1 = some p ∧
        (allocate ops s n).2.inner_buddy_alloc = s.inner_buddy_alloc) ∧
      (((fetchFreelist s).1.allocate n).1 = none →
        (allocate ops s n).1 = (ops.allocateB (fetchBuddy ops s).1 n).1)) ∧
    ((allocate ops s n).1 = none ↔
      ((MAX_FREELIST_ALLOC_SIZE < n →
          (ops.allocateB (fetchBuddy ops s).1 n).1 = none) ∧
       (n ≤ MAX_FREELIST_ALLOC_SIZE →
          ((fetchFreelist s).1.allocate n).1 = none ∧
          (ops.allocateB (fetchBuddy ops s).1 n).1 = none))) := by
  obtain ⟨fb, fl, fm, ifl, ib⟩ := s
  by_cases hn : MAX_FREELIST_ALLOC_SIZE < n
  · have hn' : ¬ n ≤ MAX_FREELIST_ALLOC_SIZE := by omega
    cases ifl <;> cases ib <;>
      simp [allocate, fetchFreelist, fetchBuddy, hn, hn']
  · have hn' : n ≤ MAX_FREELIST_ALLOC_SIZE := by omega
    cases ifl with
    | none =>
      cases ib <;>
        · rcases hr : (FreelistAlloc.allocate
              (FreelistAlloc.new fb fl fm) n).1 with _ | p <;>
            simp [allocate, fetchFreelist, fetchBuddy, hn, hn', hr]
    | some f =>
      cases ib <;>
        · rcases hr : (FreelistAlloc.allocate f n).1 with _ | p <;>
            simp [allocate, fetchFreelist, fetchBuddy, hn, hn', hr]

/-- Witness for C1 at concrete inputs: a 100-byte request goes to the buddy
region, a 10-byte request is served by the freelist region. -/
theorem NonThreadsafeAlloc.allocate_routes_witness :
    (NonThreadsafeAlloc.allocate unitOps sNTA0 100).1
        = (unitOps.allocateB (fetchBuddy unitOps sNTA0).1 100).1 ∧
    ((NonThreadsafeAlloc.allocate unitOps sNTA0 10).1 = some 128 ∧
      (NonThreadsafeAlloc.allocate unitOps sNTA0 10).2.inner_buddy_alloc
        = sNTA0.inner_buddy_alloc) :=
  ⟨((NonThreadsafeAlloc.allocate_routes unitOps sNTA0 100).1 (by decide)).1,
   ((NonThreadsafeAlloc.allocate_routes unitOps sNTA0 10).2.1
      (by decide)).1 128 (by decide)⟩

/-- **C4.** Routing of `NonThreadsafeAlloc::deallocate`: the pointer is
given to the freelist region exactly when its `contains_ptr` holds, and to
the buddy region otherwise, where `contains_ptr` is precisely the total
range check against `[base_addr, end_addr)` (with `end_addr = base_addr +
length` for the lazily constructed region). -/
theorem NonThreadsafeAlloc.deallocate_routes {B : Type} (ops : BuddyOps B)
    (s : NonThreadsafeAlloc B) (p : Nat) :
    ((fetchFreelist s).1.contains_ptr p ↔
        (fetchFreelist s).1.base_addr ≤ p ∧ p < (fetchFreelist s).1.end_addr) ∧
    (s.inner_freelist_alloc = none →
        (fetchFreelist s).1.base_addr = s.freelist_base ∧
        (fetchFreelist s).1.end_addr = s.freelist_base + s.freelist_len) ∧
    ((fetchFreelist s).1.contains_ptr p →
        deallocate ops s p
          = { (fetchFreelist s).2 with
              inner_freelist_alloc := some ((fetchFreelist s).1.deallocate p) }) ∧
    (¬ (fetchFreelist s).1.contains_ptr p →
        deallocate ops s p
          = { (fetchBuddy ops (fetchFreelist s).2).2 with
              inner_buddy_alloc :=
                some (ops.deallocateB (fetchBuddy ops (fetchFreelist s).2).1 p) }) := by
  obtain ⟨fb, fl, fm, ifl, ib⟩ := s
  cases ifl <;> cases ib <;>
    · constructor
      · simp [FreelistAlloc.contains_ptr]
      refine ⟨by simp [fetchFreelist, FreelistAlloc.new], ?_, ?_⟩ <;>
        · intro hc
          simp_all [deallocate, fetchFreelist, fetchBuddy]

/-- Witness for C4 at concrete inputs: address 100 lies inside the 2-slot
freelist region and is routed there; address 5000 lies outside and is
routed to the buddy region. -/
theorem NonThreadsafeAlloc.deallocate_routes_witness :
    (NonThreadsafeAlloc.deallocate unitOps sNTA0 100
      = { (fetchFreelist sNTA0).2 with
          inner_freelist_alloc :=
            some ((fetchFreelist sNTA0).1.deallocate 100) }) ∧
    (NonThreadsafeAlloc.deallocate unitOps sNTA0 5000
      = { (fetchBuddy unitOps (fetchFreelist sNTA0).2).2 with
          inner_buddy_alloc :=
            some (unitOps.deallocateB
              (fetchBuddy unitOps (fetchFreelist sNTA0).2).1 5000) }) :=
  ⟨(NonThreadsafeAlloc.deallocate_routes unitOps sNTA0 100).2.2.1 (by decide),
   (NonThreadsafeAlloc.deallocate_routes unitOps sNTA0 5000).2.2.2 (by decide)⟩

/-- **C8 (counterexample).** The claim that `GlobalAlloc::dealloc` asserts
non-null and forwards every pointer to `Allocator::deallocate` fails at the
null pointer: on a fresh dispatcher, `dealloc` at null leaves the state
untouched (in particular the freelist region stays unconstructed), while
`deallocate` at null would construct it, so the two differ. -/
theorem NonThreadsafeAlloc.deallocRaw_null_not_forwarded :
    NonThreadsafeAlloc.deallocRaw unitOps sNTA0 0
      ≠ NonThreadsafeAlloc.deallocate unitOps sNTA0 0 := by
  intro h
  have h2 := congrArg NonThreadsafeAlloc.inner_freelist_alloc h
  have hl : (NonThreadsafeAlloc.deallocRaw unitOps sNTA0 0).inner_freelist_alloc
      = none := by
    simp [deallocRaw, sNTA0, newD]
  have hr : (NonThreadsafeAlloc.deallocate unitOps sNTA0 0).inner_freelist_alloc
      ≠ none := by
    have hc : ¬ (fetchFreelist sNTA0).1.contains_ptr 0 := by decide
    simp [deallocate, fetchFreelist, fetchBuddy, sNTA0, newD] at hc ⊢
    simp [hc]
  exact hr (hl ▸ h2.symm)

/-- **C8 (amended).** The `GlobalAlloc` shim returns the raw pointer of
`Allocator::allocate` on success and a raw null pointer on failure, and its
`dealloc` forwards the pointer to `Allocator::deallocate` exactly when the
pointer is non-null, silently ignoring a null pointer. -/
theorem NonThreadsafeAlloc.globalAlloc_shim {B : Type} (ops : BuddyOps B)
    (s : NonThreadsafeAlloc B) (n p : Nat) :
    (∀ q, (allocate ops s n).1 = some q →
        allocRaw ops s n = (q, (allocate ops s n).2)) ∧
    ((allocate ops s n).1 = none → allocRaw ops s n = (0, (allocate ops s n).2)) ∧
    (p ≠ 0 → deallocRaw ops s p = deallocate ops s p) ∧
    deallocRaw ops s 0 = s := by
  refine ⟨?_, ?_, ?_, ?_⟩
  · intro q hq; simp [allocRaw, hq]
  · intro hq; simp [allocRaw, hq]
  · intro hp; simp [deallocRaw, hp]
  · simp [deallocRaw]

/-- Witness for C8 (amended) at concrete inputs. -/
theorem NonThreadsafeAlloc.globalAlloc_shim_witness :
    NonThreadsafeAlloc.allocRaw unitOps sNTA0 10
        = (128, (NonThreadsafeAlloc.allocate unitOps sNTA0 10).2) ∧
    NonThreadsafeAlloc.deallocRaw unitOps sNTA0 100
        = NonThreadsafeAlloc.deallocate unitOps sNTA0 100 :=
  ⟨(NonThreadsafeAlloc.globalAlloc_shim unitOps sNTA0 10 100).1 128 (by decide),
   (NonThreadsafeAlloc.globalAlloc_shim unitOps sNTA0 10 100).2.2.1 (by decide)⟩

set_option maxRecDepth 100000 in
set_option maxHeartbeats 2000000 in
/-- **C3.** Over a 4096-byte freelist region (64 slots): 64 block-sized
allocations all succeed and return, collectively, the start address of
every slot of the region (the sentinel slot included); the 65th allocation
fails; after deallocating all 64 pointers, 64 further allocations all
succeed again. -/
theorem FreelistAlloc.fill_drain_refill :
    ((allocManyFL sFL4096 64).1.all Option.isSome = true) ∧
    (((allocManyFL sFL4096 64).2.allocate 64).1 = none) ∧
    (List.insertionSort (· ≤ ·) ((allocManyFL sFL4096 64).1.filterMap id)
      = (List.range 64).map (fun i => 4096 + 64 * i)) ∧
    ((allocManyFL
        (deallocManyFL (allocManyFL sFL4096 64).2
          ((allocManyFL sFL4096 64).1.filterMap id)) 64).1.all
            Option.isSome = true) := by
  decide

section FreelistInvariant

@[simp] theorem writeNext_prev_field (m : Mem) (a v x : Nat) :
    (writeNext m a v x).prev = (m x).prev := by
  unfold writeNext; split
  · next h => simp [h]
  · rfl

@[simp] theorem writePrev_next_field (m : Mem) (a v x : Nat) :
    (writePrev m a v x).next = (m x).next := by
  unfold writePrev; split
  · next h => simp [h]
  · rfl

theorem slotOk_mod {base len a : Nat} (h : slotOk base len a) :
    a % BLOCK_SIZE = base % BLOCK_SIZE := by
  obtain ⟨h1, _, h3⟩ := h
  unfold BLOCK_SIZE at *
  omega

theorem slotOk_ne_zero {base len a : Nat} (hb : 0 < base)
    (h : slotOk base len a) : a ≠ 0 := by
  obtain ⟨h1, -, -⟩ := h; omega

theorem MemOk.writeNext {base len : Nat} {m : Mem} (h : MemOk base len m)
    {v : Nat} (hv : slotOk base len v) (a : Nat) :
    MemOk base len (BuddyAllocProof.writeNext m a v) := by
  intro x hx
  by_cases hxa : x = a
  · subst hxa
    exact ⟨by simpa using hv, by simpa using (h x hx).2⟩
  · rw [writeNext_read_ne m a v x hxa]
    exact h x hx

theorem MemOk.writePrev {base len : Nat} {m : Mem} (h : MemOk base len m)
    {v : Nat} (hv : slotOk base len v) (a : Nat) :
    MemOk base len (BuddyAllocProof.writePrev m a v) := by
  intro x hx
  by_cases hxa : x = a
  · subst hxa
    exact ⟨by simpa using (h x hx).1, by simpa using hv⟩
  · rw [writePrev_read_ne m a v x hxa]
    exact h x hx

theorem MemOk.writeNode {base len : Nat} {m : Mem} (h : MemOk base len m)
    {nd : Node} (hv1 : slotOk base len nd.next) (hv2 : slotOk base len nd.prev)
    (a : Nat) : MemOk base len (BuddyAllocProof.writeNode m a nd) := by
  intro x hx
  by_cases hxa : x = a
  · subst hxa; simpa using ⟨hv1, hv2⟩
  · rw [writeNode_read_ne m a nd x hxa]
    exact h x hx

/-- Allocation preserves the invariant and returns a slot address. -/
theorem Inv.allocate {base len : Nat} {s : FreelistAlloc}
    (h : Inv base len s) (n : Nat) :
    Inv base len (s.allocate n).2 ∧
    (∀ p, (s.allocate n).1 = some p → slotOk base len p) := by
  obtain ⟨hbase, hend, hfree, hmem⟩ := h
  unfold FreelistAlloc.allocate
  by_cases hc : BLOCK_SIZE < n ∨ s.free = 0
  · simp only [hc, if_pos]
    exact ⟨⟨hbase, hend, hfree, hmem⟩, by simp⟩
  · simp only [hc, if_neg, not_false_iff]
    have hf : slotOk base len s.free := by
      rcases hfree with h0 | h1
      · exact absurd (Or.inr h0) hc
      · exact h1
    have hnext : slotOk base len (s.mem s.free).next := (hmem s.free hf).1
    constructor
    · refine ⟨hbase, hend, ?_, ?_⟩
      · dsimp only
        split
        · exact Or.inl rfl
        · exact Or.inr hf
      · dsimp only [Node.pop, Node.remove]
        have h1 : slotOk base len (s.mem (s.mem s.free).next).next :=
          (hmem _ hnext).1
        have h2 : slotOk base len (s.mem (s.mem s.free).next).prev :=
          (hmem _ hnext).2
        refine MemOk.writePrev (MemOk.writeNext hmem h1 _) ?_ _
        simpa using h2
    · intro p hp
      dsimp only [Node.pop] at hp
      obtain rfl : (s.mem s.free).next = p := by
        simpa using hp
      exact hnext

/-- Deallocation at a slot address preserves the invariant. -/
theorem Inv.deallocate {base len : Nat} {s : FreelistAlloc}
    (h : Inv base len s) {p : Nat} (hp : slotOk base len p) :
    Inv base len (s.deallocate p) := by
  obtain ⟨hbase, hend, hfree, hmem⟩ := h
  unfold FreelistAlloc.deallocate
  by_cases hc : s.free = 0
  · simp only [hc, if_pos]
    exact ⟨hbase, hend, Or.inr hp, MemOk.writeNode hmem hp hp p⟩
  · simp only [hc, if_neg, not_false_iff]
    have hf : slotOk base len s.free := by
      rcases hfree with h0 | h1
      · exact absurd h0 hc
      · exact h1
    refine ⟨hbase, hend, Or.inr hf, ?_⟩
    dsimp only [Node.push]
    refine MemOk.writeNext (MemOk.writePrev (MemOk.writeNode hmem ?_ hf p) hp _) hp _
    exact (hmem s.free hf).1

theorem memOkOn_full {base len : Nat} {m : Mem}
    (hd : BLOCK_SIZE ∣ len) (hl : BLOCK_SIZE ≤ len)
    (h : MemOkOn base len m (base + len - BLOCK_SIZE)) : MemOk base len m := by
  intro a ha
  refine h a ha ?_
  obtain ⟨h1, h2, h3⟩ := ha
  obtain ⟨k, rfl⟩ := hd
  unfold BLOCK_SIZE at *
  omega

theorem memOkOn_writeNext {base len hi : Nat} {m : Mem}
    (h : MemOkOn base len m hi) {v : Nat} (hv : slotOk base len v) (a : Nat) :
    MemOkOn base len (BuddyAllocProof.writeNext m a v) hi := by
  intro x hx hxle
  by_cases hxa : x = a
  · subst hxa
    exact ⟨by simpa using hv, by simpa using (h x hx hxle).2⟩
  · rw [writeNext_read_ne m a v x hxa]
    exact h x hx hxle

theorem memOkOn_writePrev {base len hi : Nat} {m : Mem}
    (h : MemOkOn base len m hi) {v : Nat} (hv : slotOk base len v) (a : Nat) :
    MemOkOn base len (BuddyAllocProof.writePrev m a v) hi := by
  intro x hx hxle
  by_cases hxa : x = a
  · subst hxa
    exact ⟨by simpa using (h x hx hxle).1, by simpa using hv⟩
  · rw [writePrev_read_ne m a v x hxa]
    exact h x hx hxle

/-- The slot-pushing loop of `FreelistAlloc::new` keeps every written slot's
fields slot-valued. -/
theorem pushSlots_memOk {base len : Nat} :
    ∀ (c : Nat) (m : Mem) (addr : Nat),
      base ≤ addr → (addr - base) % BLOCK_SIZE = 0 →
      addr + BLOCK_SIZE * c + BLOCK_SIZE ≤ base + len →
      MemOkOn base len m addr →
      MemOkOn base len (FreelistAlloc.pushSlots base m addr c)
        (addr + BLOCK_SIZE * c) := by
  intro c
  induction c with
  | zero =>
    intro m addr _ _ _ hm
    simpa [FreelistAlloc.pushSlots] using hm
  | succ c ih =>
    intro m addr hba hmod hrange hm
    have hbaseOk : slotOk base len base := by
      unfold slotOk BLOCK_SIZE at *; omega
    have haddrOk : slotOk base len (addr + BLOCK_SIZE) := by
      unfold slotOk BLOCK_SIZE at *; omega
    have hheadnext : slotOk base len (m base).next :=
      (hm base hbaseOk hba).1
    -- the fresh node write extends goodness to the new slot …
    have hm1 : MemOkOn base len
        (writeNode m (addr + BLOCK_SIZE)
          { next := (m base).next, prev := base }) (addr + BLOCK_SIZE) := by
      intro x hx hxle
      by_cases hxa : x = addr + BLOCK_SIZE
      · subst hxa
        simpa using ⟨hheadnext, hbaseOk⟩
      · have hxle' : x ≤ addr := by
          obtain ⟨e1, e2, e3⟩ := hx
          unfold BLOCK_SIZE at *
          omega
        rw [writeNode_read_ne _ _ _ _ hxa]
        exact hm x hx hxle'
    -- … and the two link fix-ups write slot values only.
    have hm' : MemOkOn base len (Node.push m base (addr + BLOCK_SIZE))
        (addr + BLOCK_SIZE) := by
      dsimp only [Node.push]
      exact memOkOn_writeNext (memOkOn_writePrev hm1 haddrOk _) haddrOk _
    have := ih (Node.push m base (addr + BLOCK_SIZE)) (addr + BLOCK_SIZE)
      (by omega) (by unfold BLOCK_SIZE at *; omega)
      (by unfold BLOCK_SIZE at *; omega) hm'
    have hgoal : addr + BLOCK_SIZE + BLOCK_SIZE * c
        = addr + BLOCK_SIZE * (c + 1) := by ring
    rw [FreelistAlloc.pushSlots, ← hgoal]
    exact this

/-- `FreelistAlloc::new` establishes the alignment invariant. -/
theorem Inv.new (base len : Nat) (m0 : Mem) (hb : 0 < base)
    (hd : BLOCK_SIZE ∣ len) (hl : BLOCK_SIZE ≤ len) :
    Inv base len (FreelistAlloc.new base len m0) := by
  have hbaseOk : slotOk base len base := by
    unfold slotOk BLOCK_SIZE at *; omega
  have hm0 : MemOkOn base len (Node.init m0 base) base := by
    intro x hx hxle
    have hxb : x = base := le_antisymm hxle hx.1
    subst hxb
    dsimp only [Node.init]
    rw [writeNode_read_eq]
    exact ⟨hbaseOk, hbaseOk⟩
  obtain ⟨k, rfl⟩ := hd
  have hk : 0 < k := by unfold BLOCK_SIZE at hl; omega
  have hrange : base + BLOCK_SIZE * (BLOCK_SIZE * k / BLOCK_SIZE - 1) + BLOCK_SIZE
      ≤ base + BLOCK_SIZE * k := by
    rw [Nat.mul_div_cancel_left k (by unfold BLOCK_SIZE; omega)]
    unfold BLOCK_SIZE
    omega
  have hmem := pushSlots_memOk (BLOCK_SIZE * k / BLOCK_SIZE - 1)
    (Node.init m0 base) base (le_refl _) (by simp) hrange hm0
  refine ⟨rfl, rfl, Or.inr hbaseOk, ?_⟩
  refine memOkOn_full ⟨k, rfl⟩ hl ?_
  have he : base + BLOCK_SIZE * (BLOCK_SIZE * k / BLOCK_SIZE - 1)
      = base + BLOCK_SIZE * k - BLOCK_SIZE := by
    rw [Nat.mul_div_cancel_left k (by unfold BLOCK_SIZE; omega)]
    unfold BLOCK_SIZE
    omega
  rw [he] at hmem
  exact hmem

/-- Every reachable state satisfies the alignment invariant and every
returned pointer is a slot address. -/
theorem ReachW_inv {base len : Nat} {m0 : Mem} (hb : 0 < base)
    (hd : BLOCK_SIZE ∣ len) (hl : BLOCK_SIZE ≤ len)
    {s : FreelistAlloc} {R : List Nat} (h : ReachW base len m0 s R) :
    Inv base len s ∧ ∀ p ∈ R, slotOk base len p := by
  induction h with
  | init => exact ⟨Inv.new base len m0 hb hd hl, by simp⟩
  | alloc s R n _ ih =>
    obtain ⟨hi, hR⟩ := ih
    have h2 := Inv.allocate hi n
    refine ⟨h2.1, ?_⟩
    intro p hp
    rcases hr : (s.allocate n).1 with _ | q
    · rw [hr] at hp
      simp only [Option.toList, List.nil_append] at hp
      exact hR p hp
    · rw [hr] at hp
      simp only [Option.toList, List.cons_append, List.mem_cons,
        List.nil_append] at hp
      rcases hp with rfl | hp
      · exact h2.2 p hr
      · exact hR p hp
  | dealloc s R p _ hmem ih =>
    obtain ⟨hi, hR⟩ := ih
    exact ⟨Inv.deallocate hi (hR p hmem), hR⟩

/-- **C7.** In any state reached from construction by allocations and by
deallocations of previously returned pointers, a successful allocation
returns a pointer congruent to the region base modulo `BLOCK_SIZE`, lying
inside the region — the start address of one of its slots. -/
theorem FreelistAlloc.allocate_slot_aligned {base len : Nat} {m0 : Mem}
    {s : FreelistAlloc} {R : List Nat} {n p : Nat}
    (hb : 0 < base) (hd : BLOCK_SIZE ∣ len) (hl : BLOCK_SIZE ≤ len)
    (hr : ReachW base len m0 s R) (hp : (s.allocate n).1 = some p) :
    p % BLOCK_SIZE = base % BLOCK_SIZE ∧ base ≤ p ∧ p < base + len := by
  have h := (ReachW_inv hb hd hl hr).1
  have h2 := (Inv.allocate h n).2 p hp
  exact ⟨slotOk_mod h2, h2.1, h2.2.1⟩

/-- Witness for C7 at a concrete input: the first allocation from a fresh
two-slot region based at 64 returns 128, a slot start address. -/
theorem FreelistAlloc.allocate_slot_aligned_witness :
    ((FreelistAlloc.new 64 128 zeroMem).allocate 64).1 = some 128 ∧
    (128 % BLOCK_SIZE = 64 % BLOCK_SIZE ∧ 64 ≤ 128 ∧ 128 < 64 + 128) :=
  ⟨by decide,
   @FreelistAlloc.allocate_slot_aligned 64 128 zeroMem
     (FreelistAlloc.new 64 128 zeroMem) [] 64 128
     (by decide) (by decide) (by decide) ReachW.init (by decide)⟩

end FreelistInvariant

section FreelistDLL

/-- Effect of `Node::push` on individual node fields, assuming the new node
differs from the list head and from the head's successor. -/
theorem push_fields {m : Mem} {a0 p : Nat} (hne : p ≠ a0)
    (hno : (m a0).next ≠ p) :
    ((Node.push m a0 p) a0).next = p ∧
    ((Node.push m a0 p) p).prev = a0 ∧
    ((Node.push m a0 p) p).next = (m a0).next ∧
    ((Node.push m a0 p) ((m a0).next)).prev = p ∧
    (∀ x, x ≠ a0 → x ≠ p → ((Node.push m a0 p) x).next = (m x).next) ∧
    (∀ y, y ≠ p → y ≠ (m a0).next → ((Node.push m a0 p) y).prev = (m y).prev) := by
  have ha0p : a0 ≠ p := fun h => hne h.symm
  have hpn : p ≠ (m a0).next := fun h => hno h.symm
  dsimp only [Node.push]
  rw [writeNode_read_ne _ _ _ _ ha0p]
  refine ⟨?_, ?_, ?_, ?_, ?_, ?_⟩
  · simp
  · rw [writeNext_prev_field, writePrev_read_ne _ _ _ _ hpn,
      writeNode_read_eq]
  · rw [writeNext_read_ne _ _ _ _ hne, writePrev_next_field,
      writeNode_read_eq]
  · rw [writeNext_prev_field, writePrev_read_eq, writeNode_read_ne _ _ _ _ hno]
  · intro x hxa hxp
    rw [writeNext_read_ne _ _ _ _ hxa, writePrev_next_field,
      writeNode_read_ne _ _ _ _ hxp]
  · intro y hyp hyn
    rw [writeNext_prev_field, writePrev_read_ne _ _ _ _ hyn,
      writeNode_read_ne _ _ _ _ hyp]

/-- Effect of `Node::remove` on individual node fields, assuming the
removed node differs from its predecessor. -/
theorem remove_fields {m : Mem} {b : Nat} (hba : b ≠ (m b).prev) :
    ((Node.remove m b) ((m b).prev)).next = (m b).next ∧
    ((Node.remove m b) ((m b).next)).prev = (m b).prev ∧
    (∀ x, x ≠ (m b).prev → ((Node.remove m b) x).next = (m x).next) ∧
    (∀ y, y ≠ (m b).next → ((Node.remove m b) y).prev = (m y).prev) := by
  dsimp only [Node.remove]
  rw [writeNext_read_ne _ _ _ _ hba]
  refine ⟨?_, ?_, ?_, ?_⟩
  · rw [writePrev_next_field, writeNext_read_eq]
  · rw [writePrev_read_eq]
  · intro x hx
    rw [writePrev_next_field, writeNext_read_ne _ _ _ _ hx]
  · intro y hy
    rw [writePrev_read_ne _ _ _ _ hy, writeNext_prev_field]

/-- A `Chain'` of links survives a memory update that does not change the
`next` field of any non-final node nor the `prev` field of any non-initial
node. -/
theorem chain'_links_congr {m m' : Mem} :
    ∀ {L : List Nat},
      (∀ x ∈ L.dropLast, (m' x).next = (m x).next) →
      (∀ y ∈ L.tail, (m' y).prev = (m y).prev) →
      List.Chain' (links m) L → List.Chain' (links m') L
  | [], _, _, _ => List.chain'_nil
  | [_], _, _, _ => List.chain'_singleton _
  | a :: b :: t, hn, hp, hc => by
    rw [List.chain'_cons] at hc ⊢
    obtain ⟨⟨h1, h2⟩, hrest⟩ := hc
    refine ⟨⟨?_, ?_⟩, ?_⟩
    · rw [hn a (by simp [List.dropLast])]
      exact h1
    · rw [hp b (by simp)]
      exact h2
    · refine chain'_links_congr ?_ ?_ hrest
      · intro x hx
        refine hn x ?_
        have : (a :: b :: t).dropLast = a :: (b :: t).dropLast := rfl
        rw [this]
        exact List.mem_cons_of_mem a hx
      · intro y hy
        exact hp y (List.mem_cons_of_mem b hy)

/-- `Node::init` produces the one-node cycle. -/
theorem cyclic_init (m : Mem) (p : Nat) : cyclic (Node.init m p) [p] := by
  unfold cyclic Node.init
  refine List.chain'_cons.mpr ⟨⟨?_, ?_⟩, List.chain'_singleton _⟩ <;> simp

/-- `Node::push` at the head turns the cycle `a0 :: rest` into the cycle
`a0 :: p :: rest`. -/
theorem cyclic_push {m : Mem} {a0 p : Nat} {rest : List Nat}
    (hc : cyclic m (a0 :: rest)) (hnd : (a0 :: rest).Nodup)
    (hp : p ∉ a0 :: rest) :
    cyclic (Node.push m a0 p) (a0 :: p :: rest) := by
  have hpa0 : p ≠ a0 := fun h => hp (h ▸ List.mem_cons_self _ _)
  unfold cyclic at hc ⊢
  cases rest with
  | nil =>
    have hl : links m a0 a0 := (List.chain'_cons.mp hc).1
    have hno : (m a0).next ≠ p := by
      rw [hl.1]; exact fun h => hpa0 h.symm
    obtain ⟨f1, f2, f3, f4, -, -⟩ := push_fields hpa0 hno
    refine List.chain'_cons.mpr ⟨⟨f1, f2⟩, List.chain'_cons.mpr ⟨⟨?_, ?_⟩, ?_⟩⟩
    · rw [f3, hl.1]
    · rw [hl.1] at f4; exact f4
    · exact List.chain'_singleton _
  | cons b t =>
    have hchain : List.Chain' (links m) (a0 :: b :: (t ++ [a0])) := hc
    have hl1 : links m a0 b := (List.chain'_cons.mp hchain).1
    have htail : List.Chain' (links m) (b :: (t ++ [a0])) :=
      (List.chain'_cons.mp hchain).2
    have hpb : p ≠ b := fun h =>
      hp (h ▸ List.mem_cons_of_mem a0 (List.mem_cons_self _ _))
    have hno : (m a0).next ≠ p := by rw [hl1.1]; exact fun h => hpb h.symm
    obtain ⟨f1, f2, f3, f4, f5, f6⟩ := push_fields hpa0 hno
    have ha0nb : a0 ∉ b :: t := by
      intro hmem
      exact (List.nodup_cons.mp hnd).1 hmem
    have hbt : b ∉ t := by
      have := (List.nodup_cons.mp hnd).2
      exact (List.nodup_cons.mp this).1
    refine List.chain'_cons.mpr ⟨⟨f1, f2⟩, List.chain'_cons.mpr ⟨⟨?_, ?_⟩, ?_⟩⟩
    · rw [f3, hl1.1]
    · rw [hl1.1] at f4; exact f4
    · -- the old suffix chain survives unchanged
      have htail2 : List.Chain' (links m) ((b :: t) ++ [a0]) := htail
      have hn2 : ∀ x ∈ ((b :: t) ++ [a0]).dropLast,
          (Node.push m a0 p x).next = (m x).next := by
        intro x hx
        rw [List.dropLast_concat] at hx
        refine f5 x (fun h => ha0nb (h ▸ hx)) (fun h => hp ?_)
        exact List.mem_cons_of_mem a0 (h ▸ hx)
      have hp2 : ∀ y ∈ ((b :: t) ++ [a0]).tail,
          (Node.push m a0 p y).prev = (m y).prev := by
        intro y hy
        have hy' : y ∈ t ++ [a0] := hy
        refine f6 y (fun h => hp ?_) ?_
        · rcases List.mem_append.mp (h ▸ hy') with h2 | h2
          · exact List.mem_cons_of_mem a0 (List.mem_cons_of_mem b h2)
          · simp at h2
            exact h2 ▸ List.mem_cons_self _ _
        · rw [hl1.1]
          intro h
          rcases List.mem_append.mp (h ▸ hy') with h2 | h2
          · exact hbt h2
          · simp at h2
            exact ha0nb (h2 ▸ List.mem_cons_self _ _)
      exact chain'_links_congr hn2 hp2 htail2

/-- Popping the head's successor turns the cycle `a0 :: b :: rest` into the
cycle `a0 :: rest`; the popped node is the head's `next`. -/
theorem cyclic_pop {m : Mem} {a0 b : Nat} {rest : List Nat}
    (hc : cyclic m (a0 :: b :: rest)) (hnd : (a0 :: b :: rest).Nodup) :
    (m a0).next = b ∧ cyclic (Node.remove m b) (a0 :: rest) := by
  unfold cyclic at hc ⊢
  have hchain : List.Chain' (links m) (a0 :: b :: (rest ++ [a0])) := hc
  have hl1 : links m a0 b := (List.chain'_cons.mp hchain).1
  have htail : List.Chain' (links m) (b :: (rest ++ [a0])) :=
    (List.chain'_cons.mp hchain).2
  have ha0b : a0 ≠ b := by
    intro h
    exact (List.nodup_cons.mp hnd).1 (h ▸ List.mem_cons_self _ _)
  have hba : b ≠ (m b).prev := by rw [hl1.2]; exact fun h => ha0b h.symm
  obtain ⟨g1, g2, g3, g4⟩ := remove_fields hba
  rw [hl1.2] at g1 g2 g3
  refine ⟨hl1.1, ?_⟩
  have ha0nbr : a0 ∉ b :: rest := (List.nodup_cons.mp hnd).1
  cases rest with
  | nil =>
    have hl2 : links m b a0 := (List.chain'_cons.mp htail).1
    rw [hl2.1] at g1 g2
    exact List.chain'_cons.mpr ⟨⟨g1, g2⟩, List.chain'_singleton _⟩
  | cons r t =>
    have hl2 : links m b r := (List.chain'_cons.mp htail).1
    have htail2 : List.Chain' (links m) (r :: (t ++ [a0])) :=
      (List.chain'_cons.mp htail).2
    have hrt : r ∉ t := by
      have h2 := (List.nodup_cons.mp hnd).2
      have h3 := (List.nodup_cons.mp h2).2
      exact (List.nodup_cons.mp h3).1
    have ha0r : a0 ≠ r := by
      intro h
      exact ha0nbr (List.mem_cons_of_mem b (h ▸ List.mem_cons_self _ _))
    rw [hl2.1] at g1 g2
    refine List.chain'_cons.mpr ⟨⟨g1, g2⟩, ?_⟩
    have htail2' : List.Chain' (links m) ((r :: t) ++ [a0]) := htail2
    have hn2 : ∀ x ∈ ((r :: t) ++ [a0]).dropLast,
        (Node.remove m b x).next = (m x).next := by
      intro x hx
      rw [List.dropLast_concat] at hx
      refine g3 x (fun h => ?_)
      exact ha0nbr (h ▸ List.mem_cons_of_mem b hx)
    have hp2 : ∀ y ∈ ((r :: t) ++ [a0]).tail,
        (Node.remove m b y).prev = (m y).prev := by
      intro y hy
      have hy' : y ∈ t ++ [a0] := hy
      refine g4 y ?_
      rw [hl2.1]
      intro h
      rcases List.mem_append.mp (h ▸ hy') with h2 | h2
      · exact hrt h2
      · simp at h2
        exact ha0r h2.symm
    exact chain'_links_congr hn2 hp2 htail2'

theorem allSlots_map_nodup (base k : Nat) :
    ((List.range k).map (fun i => base + BLOCK_SIZE * i)).Nodup := by
  refine List.Nodup.map ?_ (List.nodup_range _)
  intro i j hij
  replace hij : base + BLOCK_SIZE * i = base + BLOCK_SIZE * j := hij
  unfold BLOCK_SIZE at hij
  omega

theorem allSlots_nodup (base len : Nat) : (allSlots base len).Nodup :=
  allSlots_map_nodup base (len / BLOCK_SIZE)

theorem mem_allSlots_slotOk {base len a : Nat} (hd : BLOCK_SIZE ∣ len)
    (h : a ∈ allSlots base len) : slotOk base len a := by
  unfold allSlots at h
  simp only [List.mem_map, List.mem_range] at h
  obtain ⟨i, hi, rfl⟩ := h
  obtain ⟨k, rfl⟩ := hd
  have hdiv : BLOCK_SIZE * k / BLOCK_SIZE = k :=
    Nat.mul_div_cancel_left k (by unfold BLOCK_SIZE; omega)
  rw [hdiv] at hi
  unfold slotOk BLOCK_SIZE at *
  refine ⟨by omega, by omega, by omega⟩

/-- Equation for a successful `FreelistAlloc::allocate`. -/
theorem FreelistAlloc.allocate_success_eq {s : FreelistAlloc} {n : Nat}
    (hn : ¬ BLOCK_SIZE < n) (hf : s.free ≠ 0) :
    s.allocate n = (some ((s.mem s.free).next),
      { s with mem := Node.remove s.mem ((s.mem s.free).next),
               free := if Node.isEmpty s.mem s.free then 0 else s.free }) := by
  unfold FreelistAlloc.allocate
  rw [if_neg (by tauto)]
  rfl

/-- The slot-pushing loop of `FreelistAlloc::new` maintains a free cycle
headed at `base` holding exactly the slots created so far. -/
theorem pushSlots_cyclic {base : Nat} :
    ∀ (c : Nat) (m : Mem) (k : Nat) (rest : List Nat),
      cyclic m (base :: rest) →
      (base :: rest).Perm
        ((List.range (k + 1)).map (fun i => base + BLOCK_SIZE * i)) →
      ∃ rest2 : List Nat,
        cyclic (FreelistAlloc.pushSlots base m (base + BLOCK_SIZE * k) c)
          (base :: rest2) ∧
        (base :: rest2).Perm
          ((List.range (k + 1 + c)).map (fun i => base + BLOCK_SIZE * i)) := by
  intro c
  induction c with
  | zero =>
    intro m k rest hc hperm
    exact ⟨rest, by simpa [FreelistAlloc.pushSlots] using hc, by simpa using hperm⟩
  | succ c ih =>
    intro m k rest hc hperm
    have hnodup : (base :: rest).Nodup :=
      hperm.nodup_iff.mpr (allSlots_map_nodup base (k + 1))
    have hpnot : base + BLOCK_SIZE * (k + 1) ∉ base :: rest := by
      intro hmem
      have h2 := hperm.mem_iff.mp hmem
      simp only [List.mem_map, List.mem_range] at h2
      obtain ⟨i, hi, hip⟩ := h2
      unfold BLOCK_SIZE at hip
      omega
    have hcyc' := cyclic_push hc hnodup hpnot
    have hperm' : (base :: (base + BLOCK_SIZE * (k + 1)) :: rest).Perm
        ((List.range (k + 2)).map (fun i => base + BLOCK_SIZE * i)) := by
      have s1 : (base :: (base + BLOCK_SIZE * (k + 1)) :: rest).Perm
          ((base + BLOCK_SIZE * (k + 1)) :: base :: rest) :=
        List.Perm.swap _ _ _
      have s2 : ((base + BLOCK_SIZE * (k + 1)) :: base :: rest).Perm
          ((base + BLOCK_SIZE * (k + 1)) ::
            (List.range (k + 1)).map (fun i => base + BLOCK_SIZE * i)) :=
        hperm.cons _
      have s3 : ((List.range (k + 1)).map (fun i => base + BLOCK_SIZE * i)
            ++ [base + BLOCK_SIZE * (k + 1)]).Perm
          ((base + BLOCK_SIZE * (k + 1)) ::
            (List.range (k + 1)).map (fun i => base + BLOCK_SIZE * i)) :=
        List.perm_append_singleton _ _
      have s4 : (List.range (k + 2)).map (fun i => base + BLOCK_SIZE * i)
          = (List.range (k + 1)).map (fun i => base + BLOCK_SIZE * i)
            ++ [base + BLOCK_SIZE * (k + 1)] := by
        rw [List.range_succ, List.map_append]
        rfl
      rw [s4]
      exact (s1.trans s2).trans s3.symm
    obtain ⟨rest2, h1, h2⟩ :=
      ih (Node.push m base (base + BLOCK_SIZE * (k + 1))) (k + 1)
        ((base + BLOCK_SIZE * (k + 1)) :: rest) hcyc' hperm'
    refine ⟨rest2, ?_, ?_⟩
    · rw [FreelistAlloc.pushSlots]
      have harr : base + BLOCK_SIZE * k + BLOCK_SIZE
          = base + BLOCK_SIZE * (k + 1) := by ring
      rw [harr]
      exact h1
    · have he : k + 1 + 1 + c = k + 1 + (c + 1) := by omega
      rw [he] at h2
      exact h2

/-- Construction produces a free cycle headed at `base` holding every slot
of the region. -/
theorem FreelistAlloc.new_cyclic {base len : Nat} (m0 : Mem)
    (hd : BLOCK_SIZE ∣ len) (hl : BLOCK_SIZE ≤ len) :
    ∃ L : List Nat, cyclic (FreelistAlloc.new base len m0).mem L ∧
      L.head? = some base ∧ L.Perm (allSlots base len) := by
  have hperm0 : ([base] : List Nat).Perm
      ((List.range (0 + 1)).map (fun i => base + BLOCK_SIZE * i)) := by
    have h1 : List.range 1 = [0] := rfl
    rw [h1]
    simp
  obtain ⟨rest2, h1, h2⟩ := pushSlots_cyclic (len / BLOCK_SIZE - 1)
    (Node.init m0 base) 0 [] (cyclic_init m0 base) hperm0
  refine ⟨base :: rest2, ?_, rfl, ?_⟩
  · have harr0 : base + BLOCK_SIZE * 0 = base := by ring
    rw [harr0] at h1
    exact h1
  · have hk : 0 + 1 + (len / BLOCK_SIZE - 1) = len / BLOCK_SIZE := by
      obtain ⟨k, rfl⟩ := hd
      have hdiv : BLOCK_SIZE * k / BLOCK_SIZE = k :=
        Nat.mul_div_cancel_left k (by unfold BLOCK_SIZE; omega)
      rw [hdiv]
      unfold BLOCK_SIZE at hl
      omega
    rw [hk] at h2
    exact h2

/-- Every state reachable under live-pointer discipline satisfies the
doubly-linked free-list invariant. -/
theorem ReachL_inv {base len : Nat} {m0 : Mem} (hb : 0 < base)
    (hd : BLOCK_SIZE ∣ len) (hl : BLOCK_SIZE ≤ len)
    {s : FreelistAlloc} {live : List Nat} (h : ReachL base len m0 s live) :
    InvL base len s live := by
  induction h with
  | init =>
    obtain ⟨L, hcyc, hhead, hperm⟩ := FreelistAlloc.new_cyclic m0 hd hl
    refine ⟨rfl, rfl, L, hcyc, ?_, fun _ => hhead, ?_⟩
    · intro h0
      have hb0 : base = 0 := h0
      omega
    · simpa using hperm
  | alloc s live n hR ih =>
    obtain ⟨hbase, hend, L, hcyc, hL0, hLh, hperm⟩ := ih
    by_cases hcond : BLOCK_SIZE < n ∨ s.free = 0
    · have heq : s.allocate n = (none, s) := by
        unfold FreelistAlloc.allocate
        rw [if_pos hcond]
      rw [heq]
      simpa using (⟨hbase, hend, L, hcyc, hL0, hLh, hperm⟩ :
        InvL base len s live)
    · push_neg at hcond
      obtain ⟨hn, hf⟩ := hcond
      have heq := FreelistAlloc.allocate_success_eq (Nat.not_lt.mpr hn) hf
      rw [heq]
      cases L with
      | nil => exact absurd (hLh hf) (by simp)
      | cons a rest =>
        have ha : a = s.free := by simpa using hLh hf
        subst ha
        have hndLL : ((s.free :: rest) ++ live).Nodup :=
          hperm.nodup_iff.mpr (allSlots_nodup base len)
        have hndL : (s.free :: rest).Nodup := List.Nodup.of_append_left hndLL
        cases rest with
        | nil =>
          have hnext : (s.mem s.free).next = s.free := by
            have hc2 : List.Chain' (links s.mem) [s.free, s.free] := hcyc
            exact ((List.chain'_cons.mp hc2).1).1
          have hempty : Node.isEmpty s.mem s.free = true := by
            simp [Node.isEmpty, hnext]
          have hfree0 : (if Node.isEmpty s.mem s.free then 0 else s.free)
              = 0 := by rw [hempty]; rfl
          refine ⟨hbase, hend, [], trivial, fun _ => rfl,
            fun hne => absurd hfree0 hne, ?_⟩
          simpa [hnext] using hperm
        | cons b t =>
          obtain ⟨hnext, hcyc'⟩ := cyclic_pop hcyc hndL
          have hbfree : b ≠ s.free := by
            intro hbe
            exact (List.nodup_cons.mp hndL).1 (hbe ▸ List.mem_cons_self _ _)
          have hempty : Node.isEmpty s.mem s.free = false := by
            simp [Node.isEmpty, hnext, hbfree]
          have hfreeK : (if Node.isEmpty s.mem s.free then 0 else s.free)
              = s.free := by rw [hempty]; rfl
          rw [hnext]
          refine ⟨hbase, hend, s.free :: t, hcyc', ?_, ?_, ?_⟩
          · intro h0
            rw [hfreeK] at h0
            exact absurd h0 hf
          · intro _
            rw [hfreeK]
            rfl
          · have hmid : (t ++ (b :: live)).Perm (b :: (t ++ live)) :=
              List.perm_middle
            exact (hmid.cons s.free).trans hperm
  | dealloc s live p hR hpl ih =>
    obtain ⟨hbase, hend, L, hcyc, hL0, hLh, hperm⟩ := ih
    have hndLL : (L ++ live).Nodup :=
      hperm.nodup_iff.mpr (allSlots_nodup base len)
    have hpnotL : p ∉ L := by
      intro hpL
      exact (List.disjoint_of_nodup_append hndLL) hpL hpl
    have hpslot : p ∈ allSlots base len :=
      hperm.mem_iff.mp (List.mem_append.mpr (Or.inr hpl))
    have hp0 : p ≠ 0 := slotOk_ne_zero hb (mem_allSlots_slotOk hd hpslot)
    have hlive' : live.Perm (p :: live.erase p) := List.perm_cons_erase hpl
    by_cases hf : s.free = 0
    · have heq : s.deallocate p
          = { s with mem := Node.init s.mem p, free := p } := by
        unfold FreelistAlloc.deallocate
        rw [if_pos hf]
      rw [heq]
      have hLnil : L = [] := hL0 hf
      subst hLnil
      refine ⟨hbase, hend, [p], cyclic_init _ _,
        fun h0 => absurd h0 hp0, fun _ => rfl, ?_⟩
      exact (hlive'.symm).trans (by simpa using hperm)
    · have heq : s.deallocate p
          = { s with mem := Node.push s.mem s.free p } := by
        unfold FreelistAlloc.deallocate
        rw [if_neg hf]
      rw [heq]
      cases L with
      | nil => exact absurd (hLh hf) (by simp)
      | cons a rest =>
        have ha : a = s.free := by simpa using hLh hf
        subst ha
        have hndL : (s.free :: rest).Nodup := List.Nodup.of_append_left hndLL
        have hcyc' := cyclic_push hcyc hndL hpnotL
        refine ⟨hbase, hend, s.free :: p :: rest, hcyc',
          fun h0 => absurd h0 hf, fun _ => rfl, ?_⟩
        have h1 : (p :: (rest ++ live.erase p)).Perm
            (rest ++ (p :: live.erase p)) := List.perm_middle.symm
        have h2 : (rest ++ (p :: live.erase p)).Perm (rest ++ live) :=
          List.Perm.append_left rest hlive'.symm
        exact ((h1.trans h2).cons s.free).trans hperm

/-- **C10 (amended).** In every state reachable by construction followed by
allocations and deallocations of live pointers (previously returned and not
yet freed), the stored free pointer is either null — and then every slot is
live — or the head of a well-formed circular doubly-linked list of pairwise
distinct slot addresses inside the region, holding exactly
`len / BLOCK_SIZE` minus the number of live allocations nodes. -/
theorem FreelistAlloc.free_list_wellformed {base len : Nat} {m0 : Mem}
    {s : FreelistAlloc} {live : List Nat}
    (hb : 0 < base) (hd : BLOCK_SIZE ∣ len) (hl : BLOCK_SIZE ≤ len)
    (h : ReachL base len m0 s live) :
    (s.free = 0 → live.length = len / BLOCK_SIZE) ∧
    (s.free ≠ 0 → ∃ L : List Nat,
      L.head? = some s.free ∧ L.Nodup ∧ (∀ a ∈ L, slotOk base len a) ∧
      cyclic s.mem L ∧ L.length = len / BLOCK_SIZE - live.length) := by
  obtain ⟨-, -, L, hcyc, hL0, hLh, hperm⟩ := ReachL_inv hb hd hl h
  have hlen : L.length + live.length = len / BLOCK_SIZE := by
    have h2 := hperm.length_eq
    simpa [allSlots] using h2
  constructor
  · intro h0
    rw [hL0 h0] at hlen
    simpa using hlen
  · intro h0
    have hndLL : (L ++ live).Nodup :=
      hperm.nodup_iff.mpr (allSlots_nodup base len)
    refine ⟨L, hLh h0, List.Nodup.of_append_left hndLL, ?_, hcyc, by omega⟩
    intro a ha
    exact mem_allSlots_slotOk hd
      (hperm.mem_iff.mp (List.mem_append.mpr (Or.inl ha)))

/-- Witness for C10 (amended) at a concrete input: the freshly constructed
two-slot region. -/
theorem FreelistAlloc.free_list_wellformed_witness :
    ∃ L : List Nat, L.head? = some (FreelistAlloc.new 64 128 zeroMem).free ∧
      L.Nodup ∧ (∀ a ∈ L, slotOk 64 128 a) ∧
      cyclic (FreelistAlloc.new 64 128 zeroMem).mem L ∧
      L.length = 128 / BLOCK_SIZE - ([] : List Nat).length :=
  (@FreelistAlloc.free_list_wellformed 64 128 zeroMem
      (FreelistAlloc.new 64 128 zeroMem) []
      (by decide) (by decide) (by decide) ReachL.init).2 (by decide)

/-- **C10 (counterexample).** Under the claim's own hypothesis — every
deallocate call receives some previously returned pointer — a double free
is allowed, and it breaks the invariant: after allocate, free, free of the
same pointer on a two-slot region, the stored free pointer is non-null yet
heads no well-formed circular doubly-linked list (the head's successor does
not point back). -/
theorem FreelistAlloc.double_free_breaks_free_list :
    ReachW 64 128 zeroMem sDouble [128] ∧ sDouble.free ≠ 0 ∧
    ¬ ∃ L : List Nat, L.head? = some sDouble.free ∧ L.Nodup ∧
        (∀ a ∈ L, slotOk 64 128 a) ∧ cyclic sDouble.mem L := by
  refine ⟨?_, by decide, ?_⟩
  · have h0 : ReachW 64 128 zeroMem (FreelistAlloc.new 64 128 zeroMem) [] :=
      ReachW.init
    have h1 := ReachW.alloc _ _ 64 h0
    have he : ((FreelistAlloc.new 64 128 zeroMem).allocate 64).1.toList
        ++ ([] : List Nat) = [128] := by decide
    rw [he] at h1
    have h2 := ReachW.dealloc _ _ 128 h1 (by simp)
    have h3 := ReachW.dealloc _ _ 128 h2 (by simp)
    exact h3
  · rintro ⟨L, hhead, -, -, hcyc⟩
    have hfree : sDouble.free = 64 := by decide
    rw [hfree] at hhead
    cases L with
    | nil => simp at hhead
    | cons a t =>
      have ha : a = 64 := by simpa using hhead
      subst ha
      cases t with
      | nil =>
        have hc2 : List.Chain' (links sDouble.mem) [64, 64] := hcyc
        have hlk := (List.chain'_cons.mp hc2).1
        have h1 := hlk.1
        have h2 : (sDouble.mem 64).next = 128 := by decide
        rw [h2] at h1
        omega
      | cons b t2 =>
        have hc2 : List.Chain' (links sDouble.mem)
            (64 :: b :: (t2 ++ [64])) := hcyc
        have hl1 := (List.chain'_cons.mp hc2).1
        have hb : b = 128 := by
          have h1 := hl1.1
          have h2 : (sDouble.mem 64).next = 128 := by decide
          rw [h2] at h1
          exact h1.symm
        rw [hb] at hl1
        have h3 := hl1.2
        have h4 : (sDouble.mem 128).prev = 128 := by decide
        rw [h4] at h3
        omega

end FreelistDLL

section BuddyConcrete

set_option maxRecDepth 100000 in
/-- **C5 (counterexample).** Under the spec's own buddy layout (metadata
outside the managed block space, capacity rounded down to a single
`leaf · 2^K` block), a fresh 1 MiB / 16 B region starts with
`available_bytes = 524288`, and the loop allocating the largest
power-of-two block at most `available_bytes() - 1` does not succeed exactly
11 times. -/
theorem BuddyAlloc.multiple_malloc_count_ne_eleven :
    (multipleMallocLoop buddy1M 32).1 ≠ 11 := by
  decide

set_option maxRecDepth 100000 in
set_option maxHeartbeats 1000000 in
/-- **C5 (amended).** Starting from a fresh 1 MiB / 16 B buddy region of
the spec model (initial `available_bytes = 524288`), the loop that at each
step allocates the largest power-of-two block of size at most
`available_bytes() - 1` succeeds exactly 16 times, and the next such
allocation fails. -/
theorem BuddyAlloc.multiple_malloc_count :
    buddy1M.available_bytes = 524288 ∧
    (multipleMallocLoop buddy1M 32).1 = 16 ∧
    (((multipleMallocLoop buddy1M 32).2.allocate
        (block_size ((first_down_k
          ((multipleMallocLoop buddy1M 32).2.available_bytes - 1)).getD 0)
          MIN_LEAF_SIZE_ALIGN)).1 = none) := by
  refine ⟨by decide, by decide, by decide⟩

end BuddyConcrete

section BuddyInvariant

@[simp] theorem updB_read_eq (f : Nat → Nat → Bool) (k i : Nat) (v : Bool) :
    updB f k i v k i = v := by
  simp [updB]

theorem updB_read_ne (f : Nat → Nat → Bool) (k i : Nat) (v : Bool)
    (k2 i2 : Nat) (h : ¬(k2 = k ∧ i2 = i)) : updB f k i v k2 i2 = f k2 i2 := by
  simp [updB, h]

@[simp] theorem updL_read_eq (f : Nat → List Nat) (k : Nat) (l : List Nat) :
    updL f k l k = l := by
  simp [updL]

theorem updL_read_ne (f : Nat → List Nat) (k : Nat) (l : List Nat)
    (k2 : Nat) (h : k2 ≠ k) : updL f k l k2 = f k2 := by
  simp [updL, h]

theorem div_pow_succ (c t : Nat) : c / 2 ^ (t + 1) = c / 2 / 2 ^ t := by
  rw [Nat.div_div_eq_div_mul]
  rw [show (2 : Nat) * 2 ^ t = 2 ^ (t + 1) by rw [pow_succ]; ring]

/-- The ancestors of a block agree with its parent's ancestors. -/
theorem anc_step {c i : Nat} (hci : c / 2 = i) (m k : Nat) (hm : k < m) :
    c / 2 ^ (m - k) = i / 2 ^ (m - (k + 1)) := by
  have he : m - k = (m - (k + 1)) + 1 := by omega
  rw [he, div_pow_succ, hci]

namespace BuddyAlloc

theorem exposed_parent {s : BuddyAlloc} {k c : Nat}
    (h : exposed s k c) : exposed s (k + 1) (c / 2) := by
  intro m hm1 hm2
  have h2 := h m (by omega) hm2
  rw [anc_step rfl m k (by omega)] at h2
  exact h2

theorem exposed_child {s : BuddyAlloc} {k i c : Nat}
    (h : exposed s (k + 1) i) (hs : s.splitB (k + 1) i = true)
    (hci : c / 2 = i) : exposed s k c := by
  intro m hm1 hm2
  rcases Nat.eq_or_lt_of_le (Nat.succ_le_of_lt hm1) with he | hl
  · rw [← he]
    have h1 : k + 1 - k = 1 := by omega
    rw [h1, pow_one, hci]
    exact hs
  · have h2 := h m (by omega) hm2
    rw [anc_step hci m k hm1]
    exact h2

theorem exposed_buddy {s : BuddyAlloc} {k c d : Nat}
    (hcd : c / 2 = d / 2) (h : exposed s k c) : exposed s k d := by
  intro m hm1 hm2
  have h2 := h m hm1 hm2
  rw [anc_step rfl m k hm1] at h2
  rw [anc_step rfl m k hm1, ← hcd]
  exact h2

theorem not_exposed_of_anc_unsplit {s : BuddyAlloc} {k i k2 a : Nat}
    (h1 : k < k2) (h2 : k2 ≤ s.K) (h3 : i / 2 ^ (k2 - k) = a)
    (h4 : s.splitB k2 a = false) : ¬ exposed s k i := by
  intro h
  have h5 := h k2 h1 h2
  rw [h3, h4] at h5
  exact Bool.false_ne_true h5

/-- Exposure is monotone under making more blocks split. -/
theorem exposed_mono {s s2 : BuddyAlloc} (hK : s2.K = s.K)
    (hmono : ∀ m j, s.splitB m j = true → s2.splitB m j = true)
    {k i : Nat} (h : exposed s k i) : exposed s2 k i := by
  intro m hm1 hm2
  rw [hK] at hm2
  exact hmono _ _ (h m hm1 hm2)

/-- Exposure is unchanged by a split-bit write that no ancestor reads. -/
theorem exposed_congr {s s2 : BuddyAlloc} (hK : s2.K = s.K)
    {k i : Nat}
    (heq : ∀ m, k < m → m ≤ s.K → s2.splitB m (i / 2 ^ (m - k))
      = s.splitB m (i / 2 ^ (m - k))) :
    (exposed s2 k i ↔ exposed s k i) := by
  constructor
  · intro h m hm1 hm2
    rw [← heq m hm1 hm2]
    exact h m hm1 (by rw [hK]; exact hm2)
  · intro h m hm1 hm2
    rw [hK] at hm2
    rw [heq m hm1 hm2]
    exact h m hm1 hm2

end BuddyAlloc

theorem buddyOf_div_two (b : Nat) : BuddyAlloc.buddyOf b / 2 = b / 2 := by
  unfold BuddyAlloc.buddyOf
  rcases Nat.even_or_odd b with h | h
  · obtain ⟨t, rfl⟩ := h
    simp only [if_pos (by omega : (t + t) % 2 = 0)]
    omega
  · obtain ⟨t, rfl⟩ := h
    simp only [if_neg (by omega : ¬(2 * t + 1) % 2 = 0)]
    omega

theorem buddyOf_ne (b : Nat) : BuddyAlloc.buddyOf b ≠ b := by
  unfold BuddyAlloc.buddyOf
  split <;> omega

theorem two_mul_div_two (b : Nat) : 2 * b / 2 = b := by omega

theorem two_mul_add_one_div_two (b : Nat) : (2 * b + 1) / 2 = b := by omega

/-- Replacing the value of a pointwise-updated function at one index of a
range sum. -/
theorem sum_map_range_update {g g' : Nat → Nat} :
    ∀ {n k : Nat}, k < n → (∀ j, j ≠ k → g' j = g j) →
      ((List.range n).map g').sum + g k = ((List.range n).map g).sum + g' k := by
  intro n
  induction n with
  | zero => intro k hk; omega
  | succ n ih =>
    intro k hk hoff
    rw [List.range_succ, List.map_append, List.map_append, List.sum_append,
      List.sum_append]
    simp only [List.map_cons, List.map_nil, List.sum_cons, List.sum_nil]
    by_cases hkn : k = n
    · subst hkn
      have hmap : (List.range k).map g' = (List.range k).map g := by
        apply List.map_congr_left
        intro j hj
        simp only [List.mem_range] at hj
        exact hoff j (by omega)
      rw [hmap]
      omega
    · have h2 := ih (by omega) hoff
      rw [hoff n (fun he => hkn he.symm)]
      omega

/-- Effect of a single free-list replacement on `available_bytes`. -/
theorem BuddyAlloc.avail_updL (s : BuddyAlloc) (k : Nat) (l : List Nat)
    (hk : k ≤ s.K) :
    BuddyAlloc.available_bytes { s with freeL := updL s.freeL k l }
        + (s.freeL k).length * (s.leaf * 2 ^ k)
      = s.available_bytes + l.length * (s.leaf * 2 ^ k) := by
  unfold BuddyAlloc.available_bytes
  dsimp only
  have h2 := @sum_map_range_update
    (fun j => (s.freeL j).length * (s.leaf * 2 ^ j))
    (fun j => (updL s.freeL k l j).length * (s.leaf * 2 ^ j))
    (s.K + 1) k (by omega)
    (fun j hj => by dsimp only; rw [updL_read_ne _ _ _ _ hj])
  simp only [updL_read_eq] at h2
  exact h2

/-- A fresh buddy region's `available_bytes` is the top block's capacity. -/
theorem BuddyAlloc.available_new (base len leaf : Nat) :
    (BuddyAlloc.new base len leaf).available_bytes
      = leaf * 2 ^ (BuddyAlloc.new base len leaf).K := by
  unfold BuddyAlloc.new BuddyAlloc.available_bytes
  dsimp only
  rw [List.range_succ, List.map_append, List.sum_append]
  simp only [List.map_cons, List.map_nil, List.sum_cons, List.sum_nil]
  have h0 : ((List.range (BuddyAlloc.maxK base len leaf)).map
      (fun k => (if k = BuddyAlloc.maxK base len leaf then [0]
        else ([] : List Nat)).length * (leaf * 2 ^ k))).sum = 0 := by
    apply List.sum_eq_zero
    intro x hx
    simp only [List.mem_map, List.mem_range] at hx
    obtain ⟨j, hj, rfl⟩ := hx
    simp [Nat.ne_of_lt hj]
  rw [h0]
  simp

theorem BuddyAlloc.new_K (base len leaf : Nat) :
    (BuddyAlloc.new base len leaf).K = BuddyAlloc.maxK base len leaf := rfl

theorem BuddyAlloc.new_leaf (base len leaf : Nat) :
    (BuddyAlloc.new base len leaf).leaf = leaf := rfl

theorem BuddyAlloc.new_freeL (base len leaf : Nat) :
    (BuddyAlloc.new base len leaf).freeL
      = fun k => if k = BuddyAlloc.maxK base len leaf then [0] else [] := rfl

theorem BuddyAlloc.new_splitB (base len leaf : Nat) :
    (BuddyAlloc.new base len leaf).splitB = fun _ _ => false := rfl

theorem BuddyAlloc.new_allocB (base len leaf : Nat) :
    (BuddyAlloc.new base len leaf).allocB = fun _ _ => false := rfl

/-- A fresh buddy region is well-formed with no live allocations. -/
theorem BuddyAlloc.new_BInv (base len leaf : Nat) (hleaf : 0 < leaf) :
    BuddyAlloc.BInv (BuddyAlloc.new base len leaf) [] := by
  have hnotUse : ∀ k i, k ≤ (BuddyAlloc.new base len leaf).K →
      ¬ BuddyAlloc.inUse (BuddyAlloc.new base len leaf) k i := by
    intro k i hk hiu
    obtain ⟨hrange, hexp, hfree⟩ := hiu
    rcases Nat.eq_or_lt_of_le hk with he | hl
    · -- top order: the only in-range block is 0, which is free
      rw [new_K] at he
      have h1 : i < 1 := by
        have h2 : (BuddyAlloc.new base len leaf).K - k = 0 := by
          rw [new_K]; omega
        rw [h2] at hrange
        simpa using hrange
      have h0 : i = 0 := by omega
      apply hfree
      rw [new_freeL, h0]
      simp [he]
    · -- below the top: the top-order ancestor is unsplit
      exact @BuddyAlloc.not_exposed_of_anc_unsplit
        (BuddyAlloc.new base len leaf) k i
        ((BuddyAlloc.new base len leaf).K) _
        hl (le_refl _) rfl rfl hexp
  refine ⟨⟨hleaf, ?_, ?_, ?_, ?_⟩, ?_, ?_, ?_, ?_⟩
  · intro k hk
    rw [new_freeL]
    have : ¬ k = BuddyAlloc.maxK base len leaf := by
      rw [new_K] at hk; omega
    simp [this]
  · intro k
    rw [new_freeL]
    dsimp only
    split <;> simp
  · intro k i hi
    rw [new_freeL] at hi
    dsimp only at hi
    split at hi
    · next hke =>
      subst hke
      have h0 : i = 0 := by simpa using hi
      subst h0
      refine ⟨by simp [new_K], ?_, rfl⟩
      intro m hm1 hm2
      rw [new_K] at hm2
      exact absurd hm2 (by omega)
    · simp at hi
  · intro k i h
    rw [new_splitB] at h
    simp at h
  · intro k q hk hq
    rw [new_allocB]
    simp only [Bool.false_eq_true, false_iff]
    intro hx
    rcases hx with ⟨h1, -⟩ | ⟨h1, -⟩
    · exact hnotUse k (2 * q) hk h1
    · exact hnotUse k (2 * q + 1) hk h1
  · intro pn hpn
    simp at hpn
  · simp
  · rw [BuddyAlloc.available_new]
    simp [BuddyAlloc.liveBytes, BuddyAlloc.new_leaf]

theorem BuddyAlloc.inUse_congr {s s2 : BuddyAlloc} (hK : s2.K = s.K)
    {k i : Nat} (hexp : BuddyAlloc.exposed s2 k i ↔ BuddyAlloc.exposed s k i)
    (hfree : i ∈ s2.freeL k ↔ i ∈ s.freeL k) :
    (BuddyAlloc.inUse s2 k i ↔ BuddyAlloc.inUse s k i) := by
  unfold BuddyAlloc.inUse
  rw [hK, hexp, hfree]

theorem BuddyAlloc.splitLoop_fields : ∀ (m : Nat) (s : BuddyAlloc) (k b : Nat),
    (BuddyAlloc.splitLoop s k b m).1.K = s.K ∧
    (BuddyAlloc.splitLoop s k b m).1.leaf = s.leaf ∧
    (BuddyAlloc.splitLoop s k b m).1.mstart = s.mstart := by
  intro m
  induction m with
  | zero => intro s k b; exact ⟨rfl, rfl, rfl⟩
  | succ m ih =>
    intro s k b
    rw [BuddyAlloc.splitLoop]
    exact ih _ _ _

/-- One iteration of `splitLoop` carries the stale-pair invariant from the
block at order `k + m + 1` to its left child at order `k + m`. -/
theorem BuddyAlloc.SInv_step {s : BuddyAlloc} {A : List (Nat × Nat)}
    {k m b : Nat} (hle : k + m + 1 ≤ s.K)
    (hinv : BuddyAlloc.SInv s A (k + m + 1) b) :
    BuddyAlloc.SInv
      { s with
        allocB := updB s.allocB (k + m + 1) (b / 2)
          (!(s.allocB (k + m + 1) (b / 2)))
        splitB := updB s.splitB (k + m + 1) b true
        freeL := updL s.freeL (k + m) ((2 * b + 1) :: s.freeL (k + m)) }
      A (k + m) (2 * b) := by
  obtain ⟨hcore, wbitsExc, wbitStale, wpend, wpendA, wlive, wdistinct,
    wavailP⟩ := hinv
  obtain ⟨hleaf, wover, wnodup, wmem, wsplit⟩ := hcore
  obtain ⟨hik, hbr, hexp, hsb, hbf⟩ := wpend
  set i := k + m + 1 with hidef
  set i0 := k + m with hi0def
  set s2 : BuddyAlloc :=
    { s with
      allocB := updB s.allocB i (b / 2) (!(s.allocB i (b / 2)))
      splitB := updB s.splitB i b true
      freeL := updL s.freeL i0 ((2 * b + 1) :: s.freeL i0) } with hs2def
  have hi0i : i0 ≠ i := by omega
  have hii0 : i = i0 + 1 := by omega
  -- range facts for the children
  have hpow : 2 ^ (s.K - i0) = 2 * 2 ^ (s.K - i) := by
    rw [← pow_succ']
    congr 1
    omega
  have hcr : 2 * b < 2 ^ (s.K - i0) := by rw [hpow]; omega
  have hrr : 2 * b + 1 < 2 ^ (s.K - i0) := by rw [hpow]; omega
  -- the children are not exposed in `s`
  have hnotc : ¬ BuddyAlloc.exposed s i0 (2 * b) := by
    refine BuddyAlloc.not_exposed_of_anc_unsplit (by omega) hik ?_ hsb
    rw [show i - i0 = 1 by omega, pow_one, two_mul_div_two]
  have hnotr : ¬ BuddyAlloc.exposed s i0 (2 * b + 1) := by
    refine BuddyAlloc.not_exposed_of_anc_unsplit (by omega) hik ?_ hsb
    rw [show i - i0 = 1 by omega, pow_one, two_mul_add_one_div_two]
  have hcf : 2 * b ∉ s.freeL i0 := fun hmem => hnotc (wmem i0 _ hmem).2.1
  have hrf : 2 * b + 1 ∉ s.freeL i0 := fun hmem => hnotr (wmem i0 _ hmem).2.1
  -- children's split bits are clear in `s`
  have hsc : s.splitB i0 (2 * b) = false := by
    cases hb2 : s.splitB i0 (2 * b) with
    | false => rfl
    | true => exact absurd (wsplit i0 _ hb2).2.2.2 hnotc
  have hsr : s.splitB i0 (2 * b + 1) = false := by
    cases hb2 : s.splitB i0 (2 * b + 1) with
    | false => rfl
    | true => exact absurd (wsplit i0 _ hb2).2.2.2 hnotr
  -- exposure transfer `s → s2`
  have hKeq : s2.K = s.K := rfl
  have hmono : ∀ k2 x, BuddyAlloc.exposed s k2 x →
      BuddyAlloc.exposed s2 k2 x := by
    intro k2 x h
    refine BuddyAlloc.exposed_mono hKeq ?_ h
    intro m2 j h2
    show updB s.splitB i b true m2 j = true
    by_cases hc : m2 = i ∧ j = b
    · simp [updB, hc]
    · rw [updB_read_ne _ _ _ _ _ _ hc]
      exact h2
  -- the new split bit is set, so the children are exposed in `s2`
  have hs2split : s2.splitB i b = true := by
    show updB s.splitB i b true i b = true
    simp
  have hexp2 : BuddyAlloc.exposed s2 i b := hmono _ _ hexp
  have hexpc : BuddyAlloc.exposed s2 i0 (2 * b) := by
    rw [hii0] at hs2split hexp2
    exact BuddyAlloc.exposed_child hexp2 hs2split (two_mul_div_two b)
  have hexpr : BuddyAlloc.exposed s2 i0 (2 * b + 1) := by
    rw [hii0] at hs2split hexp2
    exact BuddyAlloc.exposed_child hexp2 hs2split (two_mul_add_one_div_two b)
  -- exposure is otherwise unchanged: only strict descendants of `(i, b)`
  -- can change, and among the exposed ones only the two children appear
  have hcongr : ∀ k2 x, ¬(k2 < i ∧ x / 2 ^ (i - k2) = b) →
      (BuddyAlloc.exposed s2 k2 x ↔ BuddyAlloc.exposed s k2 x) := by
    intro k2 x hnd
    refine BuddyAlloc.exposed_congr hKeq ?_
    intro m2 hm1 hm2
    show updB s.splitB i b true m2 (x / 2 ^ (m2 - k2)) = s.splitB m2 _
    refine updB_read_ne _ _ _ _ _ _ ?_
    rintro ⟨rfl, hj⟩
    exact hnd ⟨hm1, hj⟩
  -- deeper descendants stay unexposed in `s2`
  have hs2sc : s2.splitB i0 (2 * b) = false := by
    show updB s.splitB i b true i0 (2 * b) = false
    rw [updB_read_ne _ _ _ _ _ _ (fun hc => hi0i hc.1)]
    exact hsc
  have hs2sr : s2.splitB i0 (2 * b + 1) = false := by
    show updB s.splitB i b true i0 (2 * b + 1) = false
    rw [updB_read_ne _ _ _ _ _ _ (fun hc => hi0i hc.1)]
    exact hsr
  have hdeep : ∀ k2 x, k2 < i0 → x / 2 ^ (i0 - k2) = 2 * b ∨
      x / 2 ^ (i0 - k2) = 2 * b + 1 →
      ¬ BuddyAlloc.exposed s2 k2 x := by
    intro k2 x hk2 hanc
    rcases hanc with h2 | h2
    · exact BuddyAlloc.not_exposed_of_anc_unsplit hk2 (by omega) h2 hs2sc
    · exact BuddyAlloc.not_exposed_of_anc_unsplit hk2 (by omega) h2 hs2sr
  have hdeepS : ∀ k2 x, k2 < i0 → x / 2 ^ (i0 - k2) = 2 * b ∨
      x / 2 ^ (i0 - k2) = 2 * b + 1 →
      ¬ BuddyAlloc.exposed s k2 x := by
    intro k2 x hk2 hanc
    rcases hanc with h2 | h2
    · exact BuddyAlloc.not_exposed_of_anc_unsplit hk2 (by omega) h2 hsc
    · exact BuddyAlloc.not_exposed_of_anc_unsplit hk2 (by omega) h2 hsr
  -- strict descendants of `(i, b)` are the children or deeper descendants
  have hdesc : ∀ k2 x, k2 < i → x / 2 ^ (i - k2) = b →
      (k2 = i0 ∧ (x = 2 * b ∨ x = 2 * b + 1)) ∨
      (k2 < i0 ∧ (x / 2 ^ (i0 - k2) = 2 * b ∨ x / 2 ^ (i0 - k2) = 2 * b + 1)) := by
    intro k2 x hk2 hanc
    rcases Nat.eq_or_lt_of_le (Nat.le_of_lt_succ (by omega : k2 < i0 + 1))
      with he | hl
    · left
      rw [show i - k2 = 1 by omega, pow_one] at hanc
      exact ⟨he, by omega⟩
    · right
      refine ⟨hl, ?_⟩
      have hsplit2 : i - k2 = (i0 - k2) + 1 := by omega
      have h3 : x / 2 ^ (i0 - k2) / 2 = b := by
        rw [Nat.div_div_eq_div_mul, ← pow_succ, ← hsplit2]
        exact hanc
      generalize x / 2 ^ (i0 - k2) = y at h3 ⊢
      omega
  -- `inUse` transfer for every block other than the two new children
  have hiuAny : ∀ k2 x, ¬(k2 = i0 ∧ (x = 2 * b ∨ x = 2 * b + 1)) →
      (BuddyAlloc.inUse s2 k2 x ↔ BuddyAlloc.inUse s k2 x) := by
    intro k2 x hyp
    by_cases hnd : k2 < i ∧ x / 2 ^ (i - k2) = b
    · rcases hdesc k2 x hnd.1 hnd.2 with ⟨hk2, hx⟩ | ⟨hk2, hx⟩
      · exact absurd ⟨hk2, hx⟩ hyp
      · constructor
        · intro h2
          exact absurd h2.2.1 (hdeep k2 x hk2 hx)
        · intro h2
          exact absurd h2.2.1 (hdeepS k2 x hk2 hx)
    · refine BuddyAlloc.inUse_congr hKeq (hcongr k2 x hnd) ?_
      show x ∈ updL s.freeL i0 ((2 * b + 1) :: s.freeL i0) k2 ↔ x ∈ s.freeL k2
      by_cases hki : k2 = i0
      · rw [hki, updL_read_eq]
        have hx1 : x ≠ 2 * b + 1 := by
          intro hx1
          refine hnd ⟨by omega, ?_⟩
          rw [hx1, show i - k2 = 1 by omega, pow_one, two_mul_add_one_div_two]
        simp [hx1]
      · rw [updL_read_ne _ _ _ _ hki]
  have hblockOf : BuddyAlloc.blockOf s2 = BuddyAlloc.blockOf s := rfl
  have hliveBytes : BuddyAlloc.liveBytes s2 A = BuddyAlloc.liveBytes s A := rfl
  -- the two children's in-use status in `s2`
  have hiuC : BuddyAlloc.inUse s2 i0 (2 * b) := by
    refine ⟨by rw [hKeq]; exact hcr, hexpc, ?_⟩
    show 2 * b ∉ updL s.freeL i0 ((2 * b + 1) :: s.freeL i0) i0
    rw [updL_read_eq]
    intro hmem
    rcases List.mem_cons.mp hmem with h2 | h2
    · omega
    · exact hcf h2
  have hiuR : ¬ BuddyAlloc.inUse s2 i0 (2 * b + 1) := by
    intro h2
    apply h2.2.2
    show 2 * b + 1 ∈ updL s.freeL i0 ((2 * b + 1) :: s.freeL i0) i0
    rw [updL_read_eq]
    exact List.mem_cons_self _ _
  refine ⟨⟨hleaf, ?_, ?_, ?_, ?_⟩, ?_, ?_, ?_, ?_, ?_, ?_, ?_⟩
  · -- wover
    intro k2 hk2
    show updL s.freeL i0 ((2 * b + 1) :: s.freeL i0) k2 = []
    rw [updL_read_ne _ _ _ _ (by change s.K < k2 at hk2; omega)]
    exact wover k2 hk2
  · -- wnodup
    intro k2
    show (updL s.freeL i0 ((2 * b + 1) :: s.freeL i0) k2).Nodup
    by_cases hki : k2 = i0
    · subst hki
      rw [updL_read_eq]
      exact List.nodup_cons.mpr ⟨hrf, wnodup i0⟩
    · rw [updL_read_ne _ _ _ _ hki]
      exact wnodup k2
  · -- wmem
    intro k2 x hx
    change x ∈ updL s.freeL i0 ((2 * b + 1) :: s.freeL i0) k2 at hx
    by_cases hki : k2 = i0
    · subst hki
      rw [updL_read_eq] at hx
      rcases List.mem_cons.mp hx with h2 | h2
      · subst h2
        exact ⟨by change _ < 2 ^ (s.K - i0); exact hrr, hexpr, hs2sr⟩
      · obtain ⟨hm1, hm2, hm3⟩ := wmem i0 x h2
        refine ⟨hm1, hmono _ _ hm2, ?_⟩
        show updB s.splitB i b true i0 x = false
        rw [updB_read_ne _ _ _ _ _ _ (fun hc => hi0i hc.1)]
        exact hm3
    · rw [updL_read_ne _ _ _ _ hki] at hx
      obtain ⟨hm1, hm2, hm3⟩ := wmem k2 x hx
      refine ⟨hm1, hmono _ _ hm2, ?_⟩
      show updB s.splitB i b true k2 x = false
      refine Eq.trans (updB_read_ne _ _ _ _ _ _ ?_) hm3
      rintro ⟨rfl, rfl⟩
      exact hbf hx
  · -- wsplit
    intro k2 x hx
    change updB s.splitB i b true k2 x = true at hx
    by_cases hc : k2 = i ∧ x = b
    · obtain ⟨rfl, rfl⟩ := hc
      exact ⟨by omega, hik, hbr, hexp2⟩
    · rw [updB_read_ne _ _ _ _ _ _ hc] at hx
      obtain ⟨hm1, hm2, hm3, hm4⟩ := wsplit k2 x hx
      exact ⟨hm1, hm2, hm3, hmono _ _ hm4⟩
  · -- wbitsExc for the new pending pair (i0, b)
    intro k2 q2 hk2 hq2 hne
    change k2 ≤ s.K at hk2
    change 2 * q2 < 2 ^ (s.K - k2) at hq2
    show updB s.allocB i (b / 2) (!(s.allocB i (b / 2))) k2 q2 = true ↔ _
    by_cases hpair : k2 = i ∧ q2 = b / 2
    · obtain ⟨rfl, rfl⟩ := hpair
      rw [updB_read_eq]
      have hA : BuddyAlloc.inUse s2 i (2 * (b / 2))
          ↔ BuddyAlloc.inUse s i (2 * (b / 2)) :=
        hiuAny i _ (fun hc => absurd hc.1.symm hi0i)
      have hB : BuddyAlloc.inUse s2 i (2 * (b / 2) + 1)
          ↔ BuddyAlloc.inUse s i (2 * (b / 2) + 1) :=
        hiuAny i _ (fun hc => absurd hc.1.symm hi0i)
      rw [hA, hB]
      cases hv : s.allocB i (b / 2) with
      | false =>
        rw [hv] at wbitStale
        simp only [Bool.false_eq_true, false_iff, not_not] at wbitStale
        simpa using wbitStale
      | true =>
        rw [hv] at wbitStale
        simp only [true_iff] at wbitStale
        simpa using wbitStale
    · rw [updB_read_ne _ _ _ _ _ _ hpair]
      have hA : BuddyAlloc.inUse s2 k2 (2 * q2)
          ↔ BuddyAlloc.inUse s k2 (2 * q2) := by
        refine hiuAny k2 _ ?_
        rintro ⟨rfl, hx | hx⟩
        · exact hne ⟨rfl, by omega⟩
        · omega
      have hB : BuddyAlloc.inUse s2 k2 (2 * q2 + 1)
          ↔ BuddyAlloc.inUse s k2 (2 * q2 + 1) := by
        refine hiuAny k2 _ ?_
        rintro ⟨rfl, hx | hx⟩
        · omega
        · exact hne ⟨rfl, by omega⟩
      rw [hA, hB]
      exact wbitsExc k2 q2 hk2 hq2 hpair
  · -- wbitStale at the new pending pair
    show updB s.allocB i (b / 2) (!(s.allocB i (b / 2))) i0 (2 * b / 2)
        = true ↔ _
    rw [two_mul_div_two, updB_read_ne _ _ _ _ _ _ (fun hc => hi0i hc.1)]
    have hold := wbitsExc i0 b (by omega)
      (by change 2 * b < 2 ^ (s.K - i0); exact hcr)
      (fun hc => hi0i hc.1)
    have hXfalse : ¬ Xor' (BuddyAlloc.inUse s i0 (2 * b))
        (BuddyAlloc.inUse s i0 (2 * b + 1)) := by
      rintro (⟨h2, -⟩ | ⟨h2, -⟩)
      · exact hnotc h2.2.1
      · exact hnotr h2.2.1
    have hbit : s.allocB i0 b = false := by
      cases hv : s.allocB i0 b with
      | false => rfl
      | true => exact absurd (hold.mp hv) hXfalse
    rw [hbit]
    simp only [Bool.false_eq_true, false_iff, not_not]
    left
    exact ⟨hiuC, hiuR⟩
  · -- wpend
    refine ⟨by change i0 ≤ s.K; omega, by change _ < 2 ^ (s.K - i0); exact hcr,
      hexpc, hs2sc, ?_⟩
    show 2 * b ∉ updL s.freeL i0 ((2 * b + 1) :: s.freeL i0) i0
    rw [updL_read_eq]
    intro hmem
    rcases List.mem_cons.mp hmem with h2 | h2
    · omega
    · exact hcf h2
  · -- wpendA
    rw [hblockOf]
    intro hmem
    simp only [List.mem_map] at hmem
    obtain ⟨pn, hpnA, hpneq⟩ := hmem
    have h2 := (wlive pn hpnA).2.2.2.1
    rw [hpneq] at h2
    exact hnotc h2
  · -- wlive
    intro pn hpn
    obtain ⟨l1, l2, l3, l4, l5, l6⟩ := wlive pn hpn
    have hnotpend : ¬((BuddyAlloc.blockOf s pn).1 = i ∧
        (BuddyAlloc.blockOf s pn).2 = b) := by
      rintro ⟨h1, h2⟩
      apply wpendA
      simp only [List.mem_map]
      exact ⟨pn, hpn, by rw [← h1, ← h2]⟩
    refine ⟨l1, l2, l3, hmono _ _ l4, ?_, ?_⟩
    · show updB s.splitB i b true (BuddyAlloc.blockOf s pn).1
          (BuddyAlloc.blockOf s pn).2 = false
      rw [updB_read_ne _ _ _ _ _ _ hnotpend]
      exact l5
    · show (BuddyAlloc.blockOf s pn).2 ∉
        updL s.freeL i0 ((2 * b + 1) :: s.freeL i0) (BuddyAlloc.blockOf s pn).1
      by_cases hki : (BuddyAlloc.blockOf s pn).1 = i0
      · rw [hki, updL_read_eq]
        intro hmem
        rcases List.mem_cons.mp hmem with h2 | h2
        · rw [hki] at l4
          rw [h2] at l4
          exact hnotr l4
        · exact l6 (hki ▸ h2)
      · rw [updL_read_ne _ _ _ _ hki]
        exact l6
  · -- wdistinct
    rw [hblockOf]
    exact wdistinct
  · -- wavailP
    have havail : s2.available_bytes + (s.freeL i0).length * (s.leaf * 2 ^ i0)
        = s.available_bytes
          + ((2 * b + 1) :: s.freeL i0).length * (s.leaf * 2 ^ i0) :=
      BuddyAlloc.avail_updL s i0 _ (by omega)
    have hmul : ((2 * b + 1) :: s.freeL i0).length * (s.leaf * 2 ^ i0)
        = (s.freeL i0).length * (s.leaf * 2 ^ i0) + s.leaf * 2 ^ i0 := by
      rw [List.length_cons]
      ring
    have hSZ : s.leaf * 2 ^ i = 2 * (s.leaf * 2 ^ i0) := by
      rw [show i = i0 + 1 from hii0, pow_succ]
      ring
    rw [hliveBytes]
    change s2.available_bytes + BuddyAlloc.liveBytes s A + s.leaf * 2 ^ i0
      = s.leaf * 2 ^ s.K
    rw [hmul] at havail
    omega

/-- `splitLoop` carries the stale-pair invariant from order `k + m` down to
order `k`, ending at the block index it returns. -/
theorem BuddyAlloc.splitLoop_SInv : ∀ (m : Nat) (s : BuddyAlloc)
    (A : List (Nat × Nat)) (k b : Nat), k + m ≤ s.K →
    BuddyAlloc.SInv s A (k + m) b →
    BuddyAlloc.SInv (BuddyAlloc.splitLoop s k b m).1 A k
      (BuddyAlloc.splitLoop s k b m).2 := by
  intro m
  induction m with
  | zero =>
    intro s A k b _ hinv
    exact hinv
  | succ m ih =>
    intro s A k b hle hinv
    rw [BuddyAlloc.splitLoop]
    have hstep := BuddyAlloc.SInv_step hle hinv
    exact ih _ A k (2 * b) (by change k + m ≤ s.K; omega) hstep

set_option maxHeartbeats 1600000 in
/-- Popping the head of the order-`j` free list turns a well-formed state
into a stale-pair state for the popped block. -/
theorem BuddyAlloc.pop_SInv {s : BuddyAlloc} {A : List (Nat × Nat)}
    {j b : Nat} {rest : List Nat}
    (hinv : BuddyAlloc.BInv s A) (hj : j ≤ s.K)
    (hfl : s.freeL j = b :: rest) :
    BuddyAlloc.SInv { s with freeL := updL s.freeL j rest } A j b := by
  obtain ⟨⟨hleaf, wover, wnodup, wmem, wsplit⟩, wbits, wlive, wdistinct,
    wavail⟩ := hinv
  set s1 : BuddyAlloc := { s with freeL := updL s.freeL j rest } with hs1def
  have hbmem : b ∈ s.freeL j := by rw [hfl]; exact List.mem_cons_self _ _
  have hnd : (b :: rest).Nodup := by rw [← hfl]; exact wnodup j
  have hbrest : b ∉ rest := (List.nodup_cons.mp hnd).1
  have hrestnd : rest.Nodup := (List.nodup_cons.mp hnd).2
  obtain ⟨hbrange, hbexp, hbsplit⟩ := wmem j b hbmem
  have hmemEq : ∀ k2 x, ¬(k2 = j ∧ x = b) →
      (x ∈ s1.freeL k2 ↔ x ∈ s.freeL k2) := by
    intro k2 x hne
    by_cases hk2 : k2 = j
    · subst hk2
      have hxb : x ≠ b := fun he => hne ⟨rfl, he⟩
      show x ∈ updL s.freeL k2 rest k2 ↔ _
      rw [updL_read_eq, hfl]
      simp [hxb]
    · show x ∈ updL s.freeL j rest k2 ↔ _
      rw [updL_read_ne _ _ _ _ hk2]
  have hiu : ∀ k2 x, ¬(k2 = j ∧ x = b) →
      (BuddyAlloc.inUse s1 k2 x ↔ BuddyAlloc.inUse s k2 x) := by
    intro k2 x hne
    exact @BuddyAlloc.inUse_congr s s1 rfl k2 x Iff.rfl (hmemEq k2 x hne)
  have hiub_s : ¬ BuddyAlloc.inUse s j b := fun h => h.2.2 hbmem
  have hiub_s1 : BuddyAlloc.inUse s1 j b := by
    refine ⟨hbrange, hbexp, ?_⟩
    show b ∉ updL s.freeL j rest j
    rw [updL_read_eq]
    exact hbrest
  refine ⟨⟨hleaf, ?_, ?_, ?_, ?_⟩, ?_, ?_, ?_, ?_, ?_, ?_, ?_⟩
  · intro k2 hk2
    show updL s.freeL j rest k2 = []
    rw [updL_read_ne _ _ _ _ (by change s.K < k2 at hk2; omega)]
    exact wover k2 hk2
  · intro k2
    show (updL s.freeL j rest k2).Nodup
    by_cases hk2 : k2 = j
    · subst hk2; rw [updL_read_eq]; exact hrestnd
    · rw [updL_read_ne _ _ _ _ hk2]; exact wnodup k2
  · intro k2 x hx
    change x ∈ updL s.freeL j rest k2 at hx
    have hx2 : x ∈ s.freeL k2 := by
      by_cases hk2 : k2 = j
      · subst hk2
        rw [updL_read_eq] at hx
        rw [hfl]
        exact List.mem_cons_of_mem _ hx
      · rw [updL_read_ne _ _ _ _ hk2] at hx
        exact hx
    exact wmem k2 x hx2
  · intro k2 x hx
    exact wsplit k2 x hx
  · -- wbitsExc away from the popped pair
    intro k2 q hk2 hq hne
    change k2 ≤ s.K at hk2
    change 2 * q < 2 ^ (s.K - k2) at hq
    have hA : BuddyAlloc.inUse s1 k2 (2 * q)
        ↔ BuddyAlloc.inUse s k2 (2 * q) := by
      refine hiu k2 _ ?_
      rintro ⟨rfl, rfl⟩
      exact hne ⟨rfl, by omega⟩
    have hB : BuddyAlloc.inUse s1 k2 (2 * q + 1)
        ↔ BuddyAlloc.inUse s k2 (2 * q + 1) := by
      refine hiu k2 _ ?_
      rintro ⟨rfl, he⟩
      exact hne ⟨rfl, by omega⟩
    have hbit : s1.allocB k2 q = s.allocB k2 q := rfl
    rw [hbit, hA, hB]
    exact wbits k2 q hk2 hq
  · -- the popped pair's bit is now stale
    have hq : 2 * (b / 2) < 2 ^ (s.K - j) := by omega
    have hold := wbits j (b / 2) hj hq
    have hbit : s1.allocB j (b / 2) = s.allocB j (b / 2) := rfl
    rcases (by omega : 2 * (b / 2) = b ∨ 2 * (b / 2) + 1 = b) with hb | hb
    · have hA : BuddyAlloc.inUse s1 j (2 * (b / 2))
          ↔ ¬ BuddyAlloc.inUse s j (2 * (b / 2)) := by
        rw [hb]; exact iff_of_true hiub_s1 hiub_s
      have hB : BuddyAlloc.inUse s1 j (2 * (b / 2) + 1)
          ↔ BuddyAlloc.inUse s j (2 * (b / 2) + 1) := by
        refine hiu j _ ?_
        rintro ⟨-, he⟩
        omega
      rw [hbit, hA, hB, hold]
      unfold Xor'
      tauto
    · have hA : BuddyAlloc.inUse s1 j (2 * (b / 2))
          ↔ BuddyAlloc.inUse s j (2 * (b / 2)) := by
        refine hiu j _ ?_
        rintro ⟨-, he⟩
        omega
      have hB : BuddyAlloc.inUse s1 j (2 * (b / 2) + 1)
          ↔ ¬ BuddyAlloc.inUse s j (2 * (b / 2) + 1) := by
        rw [hb]; exact iff_of_true hiub_s1 hiub_s
      rw [hbit, hA, hB, hold]
      unfold Xor'
      tauto
  · -- the popped block is pending
    refine ⟨hj, hbrange, hbexp, hbsplit, ?_⟩
    show b ∉ updL s.freeL j rest j
    rw [updL_read_eq]
    exact hbrest
  · -- and absent from the live list
    have hbo : BuddyAlloc.blockOf s1 = BuddyAlloc.blockOf s := rfl
    rw [hbo]
    intro hmem
    simp only [List.mem_map] at hmem
    obtain ⟨pn, hpnA, hpneq⟩ := hmem
    have h2 := (wlive pn hpnA).2.2.2.2.2
    rw [hpneq] at h2
    exact h2 hbmem
  · -- live entries stay well-formed
    intro pn hpn
    obtain ⟨l1, l2, l3, l4, l5, l6⟩ := wlive pn hpn
    refine ⟨l1, l2, l3, l4, l5, ?_⟩
    show (BuddyAlloc.blockOf s pn).2 ∉
      updL s.freeL j rest (BuddyAlloc.blockOf s pn).1
    by_cases hk2 : (BuddyAlloc.blockOf s pn).1 = j
    · rw [hk2, updL_read_eq]
      intro hmem
      apply l6
      rw [hk2, hfl]
      exact List.mem_cons_of_mem _ hmem
    · rw [updL_read_ne _ _ _ _ hk2]
      exact l6
  · have hbo : BuddyAlloc.blockOf s1 = BuddyAlloc.blockOf s := rfl
    rw [hbo]
    exact wdistinct
  · -- accounting: one order-`j` block left the free lists
    have havail := BuddyAlloc.avail_updL s j rest hj
    rw [hfl, List.length_cons] at havail
    have hmul : (rest.length + 1) * (s.leaf * 2 ^ j)
        = rest.length * (s.leaf * 2 ^ j) + s.leaf * 2 ^ j := by ring
    rw [hmul] at havail
    change BuddyAlloc.available_bytes { s with freeL := updL s.freeL j rest }
      + BuddyAlloc.liveBytes s A + s.leaf * 2 ^ j = s.leaf * 2 ^ s.K
    omega

/-- The final pair-bit flip of `allocate` turns the stale-pair state into a
fully well-formed state with the new allocation recorded. -/
theorem BuddyAlloc.SInv_finish {s : BuddyAlloc} {A : List (Nat × Nat)}
    {k b p n : Nat}
    (hinv : BuddyAlloc.SInv s A k b)
    (hreq : BuddyAlloc.reqK s.leaf n = k)
    (hp : p = s.mstart + b * (s.leaf * 2 ^ k)) :
    BuddyAlloc.BInv
      { s with allocB := updB s.allocB k (b / 2) (!(s.allocB k (b / 2))) }
      ((p, n) :: A) := by
  obtain ⟨⟨hleaf, wover, wnodup, wmem, wsplit⟩, wbitsExc, wbitStale, wpend,
    wpendA, wlive, wdistinct, wavailP⟩ := hinv
  obtain ⟨hk, hbrange, hbexp, hbsplit, hbnf⟩ := wpend
  set s2 : BuddyAlloc :=
    { s with allocB := updB s.allocB k (b / 2) (!(s.allocB k (b / 2))) }
    with hs2def
  have hblk : BuddyAlloc.blockOf s2 (p, n) = (k, b) := by
    show (BuddyAlloc.reqK s.leaf n,
      (p - s.mstart) / (s.leaf * 2 ^ BuddyAlloc.reqK s.leaf n)) = (k, b)
    rw [hreq]
    have h1 : p - s.mstart = b * (s.leaf * 2 ^ k) := by
      rw [hp]
      omega
    rw [h1, Nat.mul_div_cancel _ (Nat.mul_pos hleaf (by positivity))]
  refine ⟨⟨hleaf, wover, wnodup, ?_, ?_⟩, ?_, ?_, ?_, ?_⟩
  · intro k2 x hx
    exact wmem k2 x hx
  · intro k2 x hx
    exact wsplit k2 x hx
  · -- wbits: the flip repairs the pending pair, nothing else moved
    intro k2 q hk2 hq
    change k2 ≤ s.K at hk2
    change 2 * q < 2 ^ (s.K - k2) at hq
    by_cases hpair : k2 = k ∧ q = b / 2
    · obtain ⟨rfl, rfl⟩ := hpair
      show updB s.allocB k2 (b / 2) (!(s.allocB k2 (b / 2))) k2 (b / 2)
          = true ↔ Xor' (BuddyAlloc.inUse s k2 (2 * (b / 2)))
            (BuddyAlloc.inUse s k2 (2 * (b / 2) + 1))
      rw [updB_read_eq]
      cases hv : s.allocB k2 (b / 2) with
      | false =>
        rw [hv] at wbitStale
        simp only [Bool.false_eq_true, false_iff, not_not] at wbitStale
        simpa using wbitStale
      | true =>
        rw [hv] at wbitStale
        simp only [true_iff] at wbitStale
        simpa using wbitStale
    · show updB s.allocB k (b / 2) (!(s.allocB k (b / 2))) k2 q
          = true ↔ Xor' (BuddyAlloc.inUse s k2 (2 * q))
            (BuddyAlloc.inUse s k2 (2 * q + 1))
      rw [updB_read_ne _ _ _ _ _ _ hpair]
      exact wbitsExc k2 q hk2 hq hpair
  · -- wlive: the new entry plus the old ones
    intro pn hpn
    rcases List.mem_cons.mp hpn with he | hold
    · subst he
      show BuddyAlloc.liveOk s2 (p, n)
      unfold BuddyAlloc.liveOk
      rw [hblk]
      exact ⟨hk, hbrange, hp, hbexp, hbsplit, hbnf⟩
    · exact wlive pn hold
  · -- wdistinct
    have hbo : BuddyAlloc.blockOf s2 = BuddyAlloc.blockOf s := rfl
    rw [List.map_cons]
    refine List.nodup_cons.mpr ⟨?_, ?_⟩
    · rw [hblk, hbo]
      exact wpendA
    · rw [hbo]
      exact wdistinct
  · -- accounting: the pending order-`k` block became the live entry
    have ha : s2.available_bytes = s.available_bytes := rfl
    have hlb : BuddyAlloc.liveBytes s2 ((p, n) :: A)
        = s.leaf * 2 ^ k + BuddyAlloc.liveBytes s A := by
      unfold BuddyAlloc.liveBytes
      rw [List.map_cons, List.sum_cons, hblk]
      rfl
    rw [ha, hlb]
    change _ = s.leaf * 2 ^ s.K
    omega

/-- `allocate` in the success case, written out. -/
theorem BuddyAlloc.allocate_success_case {s : BuddyAlloc} {n j b : Nat}
    {rest : List Nat}
    (hK : ¬ s.K < BuddyAlloc.reqK s.leaf n)
    (hfj : BuddyAlloc.findJ s (BuddyAlloc.reqK s.leaf n) = some j)
    (hfl : s.freeL j = b :: rest) :
    s.allocate n =
      (some (s.mstart
          + (BuddyAlloc.splitLoop { s with freeL := updL s.freeL j rest }
              (BuddyAlloc.reqK s.leaf n) b
              (j - BuddyAlloc.reqK s.leaf n)).2
            * (s.leaf * 2 ^ BuddyAlloc.reqK s.leaf n)),
        { (BuddyAlloc.splitLoop { s with freeL := updL s.freeL j rest }
              (BuddyAlloc.reqK s.leaf n) b
              (j - BuddyAlloc.reqK s.leaf n)).1 with
          allocB := updB
            (BuddyAlloc.splitLoop { s with freeL := updL s.freeL j rest }
              (BuddyAlloc.reqK s.leaf n) b
              (j - BuddyAlloc.reqK s.leaf n)).1.allocB
            (BuddyAlloc.reqK s.leaf n)
            ((BuddyAlloc.splitLoop { s with freeL := updL s.freeL j rest }
              (BuddyAlloc.reqK s.leaf n) b
              (j - BuddyAlloc.reqK s.leaf n)).2 / 2)
            (!((BuddyAlloc.splitLoop { s with freeL := updL s.freeL j rest }
              (BuddyAlloc.reqK s.leaf n) b
              (j - BuddyAlloc.reqK s.leaf n)).1.allocB
              (BuddyAlloc.reqK s.leaf n)
              ((BuddyAlloc.splitLoop { s with freeL := updL s.freeL j rest }
                (BuddyAlloc.reqK s.leaf n) b
                (j - BuddyAlloc.reqK s.leaf n)).2 / 2))) }) := by
  unfold BuddyAlloc.allocate
  dsimp only
  rw [if_neg hK, hfj]
  dsimp only
  rw [hfl]

/-- `allocate` preserves well-formedness, recording the returned pointer
with the requested size as a live allocation. -/
theorem BuddyAlloc.allocate_BInv {s : BuddyAlloc} {A : List (Nat × Nat)}
    (hinv : BuddyAlloc.BInv s A) (n : Nat) :
    BuddyAlloc.BInv (s.allocate n).2
      (((s.allocate n).1.map (fun p => (p, n))).toList ++ A) := by
  by_cases hK : s.K < BuddyAlloc.reqK s.leaf n
  · have he : s.allocate n = (none, s) := by
      unfold BuddyAlloc.allocate
      dsimp only
      rw [if_pos hK]
    rw [he]
    exact hinv
  cases hfj : BuddyAlloc.findJ s (BuddyAlloc.reqK s.leaf n) with
  | none =>
    have he : s.allocate n = (none, s) := by
      unfold BuddyAlloc.allocate
      dsimp only
      rw [if_neg hK, hfj]
    rw [he]
    exact hinv
  | some j =>
    have hfind := List.find?_some hfj
    have hjprop : BuddyAlloc.reqK s.leaf n ≤ j ∧ s.freeL j ≠ [] :=
      of_decide_eq_true hfind
    have hjmem := List.mem_of_find?_eq_some hfj
    have hjK : j ≤ s.K := by
      have h2 := List.mem_range.mp hjmem
      omega
    cases hfl : s.freeL j with
    | nil => exact absurd hfl hjprop.2
    | cons b rest =>
      rw [BuddyAlloc.allocate_success_case hK hfj hfl]
      simp only [Option.map_some', Option.toList_some, List.singleton_append]
      have hpop := BuddyAlloc.pop_SInv hinv hjK hfl
      have hpop2 : BuddyAlloc.SInv { s with freeL := updL s.freeL j rest } A
          (BuddyAlloc.reqK s.leaf n
            + (j - BuddyAlloc.reqK s.leaf n)) b := by
        rw [show BuddyAlloc.reqK s.leaf n + (j - BuddyAlloc.reqK s.leaf n) = j
          from by omega]
        exact hpop
      have hsb := BuddyAlloc.splitLoop_SInv (j - BuddyAlloc.reqK s.leaf n)
        { s with freeL := updL s.freeL j rest } A
        (BuddyAlloc.reqK s.leaf n) b (by change _ ≤ s.K; omega) hpop2
      have hfields := BuddyAlloc.splitLoop_fields
        (j - BuddyAlloc.reqK s.leaf n)
        { s with freeL := updL s.freeL j rest }
        (BuddyAlloc.reqK s.leaf n) b
      have hl : (BuddyAlloc.splitLoop { s with freeL := updL s.freeL j rest }
          (BuddyAlloc.reqK s.leaf n) b
          (j - BuddyAlloc.reqK s.leaf n)).1.leaf = s.leaf := hfields.2.1
      have hm : (BuddyAlloc.splitLoop { s with freeL := updL s.freeL j rest }
          (BuddyAlloc.reqK s.leaf n) b
          (j - BuddyAlloc.reqK s.leaf n)).1.mstart = s.mstart := hfields.2.2
      refine BuddyAlloc.SInv_finish hsb ?_ ?_
      · rw [hl]
      · rw [hl, hm]

set_option maxHeartbeats 1600000 in
/-- Flipping the pending block's pair bit and pushing it onto its order's
free list — the final act of `freeLoop` — restores full well-formedness. -/
theorem BuddyAlloc.FInv_finish {s : BuddyAlloc} {A : List (Nat × Nat)}
    {k b : Nat} (hinv : BuddyAlloc.FInv s A k b) :
    BuddyAlloc.BInv
      { s with
        allocB := updB s.allocB k (b / 2) (!(s.allocB k (b / 2))),
        freeL := updL s.freeL k (b :: s.freeL k) } A := by
  obtain ⟨⟨hleaf, wover, wnodup, wmem, wsplit⟩, wbits, wpend, wpendA, wlive,
    wdistinct, wavailP⟩ := hinv
  obtain ⟨hk, hbrange, hbexp, hbsplit, hbnf⟩ := wpend
  set s3 : BuddyAlloc :=
    { s with
      allocB := updB s.allocB k (b / 2) (!(s.allocB k (b / 2))),
      freeL := updL s.freeL k (b :: s.freeL k) } with hs3def
  have hmemEq : ∀ k2 x, ¬(k2 = k ∧ x = b) →
      (x ∈ s3.freeL k2 ↔ x ∈ s.freeL k2) := by
    intro k2 x hne
    by_cases hk2 : k2 = k
    · subst hk2
      have hxb : x ≠ b := fun he => hne ⟨rfl, he⟩
      show x ∈ updL s.freeL k2 (b :: s.freeL k2) k2 ↔ _
      rw [updL_read_eq]
      simp [hxb]
    · show x ∈ updL s.freeL k (b :: s.freeL k) k2 ↔ _
      rw [updL_read_ne _ _ _ _ hk2]
  have hiu : ∀ k2 x, ¬(k2 = k ∧ x = b) →
      (BuddyAlloc.inUse s3 k2 x ↔ BuddyAlloc.inUse s k2 x) := by
    intro k2 x hne
    exact @BuddyAlloc.inUse_congr s s3 rfl k2 x Iff.rfl (hmemEq k2 x hne)
  have hiub_s : BuddyAlloc.inUse s k b := ⟨hbrange, hbexp, hbnf⟩
  have hiub_s3 : ¬ BuddyAlloc.inUse s3 k b := by
    intro h
    apply h.2.2
    show b ∈ updL s.freeL k (b :: s.freeL k) k
    rw [updL_read_eq]
    exact List.mem_cons_self _ _
  refine ⟨⟨hleaf, ?_, ?_, ?_, ?_⟩, ?_, ?_, ?_, ?_⟩
  · intro k2 hk2
    show updL s.freeL k (b :: s.freeL k) k2 = []
    rw [updL_read_ne _ _ _ _ (by change s.K < k2 at hk2; omega)]
    exact wover k2 hk2
  · intro k2
    show (updL s.freeL k (b :: s.freeL k) k2).Nodup
    by_cases hk2 : k2 = k
    · subst hk2
      rw [updL_read_eq]
      exact List.nodup_cons.mpr ⟨hbnf, wnodup k2⟩
    · rw [updL_read_ne _ _ _ _ hk2]
      exact wnodup k2
  · intro k2 x hx
    change x ∈ updL s.freeL k (b :: s.freeL k) k2 at hx
    by_cases hk2 : k2 = k
    · subst hk2
      rw [updL_read_eq] at hx
      rcases List.mem_cons.mp hx with rfl | hx2
      · exact ⟨hbrange, hbexp, hbsplit⟩
      · exact wmem k2 x hx2
    · rw [updL_read_ne _ _ _ _ hk2] at hx
      exact wmem k2 x hx
  · intro k2 x hx
    exact wsplit k2 x hx
  · -- wbits: the flip matches the pending block's move onto the free list
    intro k2 q hk2 hq
    change k2 ≤ s.K at hk2
    change 2 * q < 2 ^ (s.K - k2) at hq
    have hbit : s3.allocB k2 q
        = updB s.allocB k (b / 2) (!(s.allocB k (b / 2))) k2 q := rfl
    by_cases hpair : k2 = k ∧ q = b / 2
    · obtain ⟨rfl, rfl⟩ := hpair
      rw [hbit, updB_read_eq]
      have hold := wbits k2 (b / 2) hk2 hq
      rcases (by omega : 2 * (b / 2) = b ∨ 2 * (b / 2) + 1 = b) with hb | hb
      · have hA : BuddyAlloc.inUse s3 k2 (2 * (b / 2))
            ↔ ¬ BuddyAlloc.inUse s k2 (2 * (b / 2)) := by
          rw [hb]; exact iff_of_false hiub_s3 (not_not_intro hiub_s)
        have hB : BuddyAlloc.inUse s3 k2 (2 * (b / 2) + 1)
            ↔ BuddyAlloc.inUse s k2 (2 * (b / 2) + 1) := by
          refine hiu k2 _ ?_
          rintro ⟨-, he⟩
          omega
        rw [hA, hB]
        cases hv : s.allocB k2 (b / 2) with
        | false =>
          rw [hv] at hold
          simp only [Bool.false_eq_true, false_iff] at hold
          refine iff_of_true rfl ?_
          unfold Xor' at hold ⊢
          tauto
        | true =>
          rw [hv] at hold
          simp only [true_iff] at hold
          refine iff_of_false (by simp) ?_
          unfold Xor' at hold ⊢
          tauto
      · have hA : BuddyAlloc.inUse s3 k2 (2 * (b / 2))
            ↔ BuddyAlloc.inUse s k2 (2 * (b / 2)) := by
          refine hiu k2 _ ?_
          rintro ⟨-, he⟩
          omega
        have hB : BuddyAlloc.inUse s3 k2 (2 * (b / 2) + 1)
            ↔ ¬ BuddyAlloc.inUse s k2 (2 * (b / 2) + 1) := by
          rw [hb]; exact iff_of_false hiub_s3 (not_not_intro hiub_s)
        rw [hA, hB]
        cases hv : s.allocB k2 (b / 2) with
        | false =>
          rw [hv] at hold
          simp only [Bool.false_eq_true, false_iff] at hold
          refine iff_of_true rfl ?_
          unfold Xor' at hold ⊢
          tauto
        | true =>
          rw [hv] at hold
          simp only [true_iff] at hold
          refine iff_of_false (by simp) ?_
          unfold Xor' at hold ⊢
          tauto
    · rw [hbit, updB_read_ne _ _ _ _ _ _ hpair]
      have hA := hiu k2 (2 * q)
        (by rintro ⟨rfl, rfl⟩; exact hpair ⟨rfl, by omega⟩)
      have hB := hiu k2 (2 * q + 1)
        (by rintro ⟨rfl, he⟩; exact hpair ⟨rfl, by omega⟩)
      rw [hA, hB]
      exact wbits k2 q hk2 hq
  · -- wlive
    intro pn hpn
    obtain ⟨l1, l2, l3, l4, l5, l6⟩ := wlive pn hpn
    refine ⟨l1, l2, l3, l4, l5, ?_⟩
    show (BuddyAlloc.blockOf s pn).2 ∉
      updL s.freeL k (b :: s.freeL k) (BuddyAlloc.blockOf s pn).1
    by_cases hk2 : (BuddyAlloc.blockOf s pn).1 = k
    · rw [hk2, updL_read_eq]
      intro hmem
      rcases List.mem_cons.mp hmem with he | hmem2
      · apply wpendA
        simp only [List.mem_map]
        refine ⟨pn, hpn, ?_⟩
        exact Prod.ext hk2 he
      · apply l6
        rw [hk2]
        exact hmem2
    · rw [updL_read_ne _ _ _ _ hk2]
      exact l6
  · have hbo : BuddyAlloc.blockOf s3 = BuddyAlloc.blockOf s := rfl
    rw [hbo]
    exact wdistinct
  · -- accounting: the pending block rejoined the free lists
    have havail := BuddyAlloc.avail_updL s k (b :: s.freeL k) hk
    rw [List.length_cons] at havail
    have hmul : ((s.freeL k).length + 1) * (s.leaf * 2 ^ k)
        = (s.freeL k).length * (s.leaf * 2 ^ k) + s.leaf * 2 ^ k := by ring
    rw [hmul] at havail
    change BuddyAlloc.available_bytes
        { s with freeL := updL s.freeL k (b :: s.freeL k) }
      + BuddyAlloc.liveBytes s A = s.leaf * 2 ^ s.K
    omega

set_option maxHeartbeats 3200000 in
/-- The merge step of `freeLoop`: when the pair bit flips to zero, the
buddy leaves its free list, the parent's split bit is cleared and the
parent becomes the pending block one order up. -/
theorem BuddyAlloc.FInv_merge {s : BuddyAlloc} {A : List (Nat × Nat)}
    {k b : Nat} (hinv : BuddyAlloc.FInv s A k b) (hklt : k < s.K)
    (hv : s.allocB k (b / 2) = true) :
    BuddyAlloc.FInv
      { s with
        allocB := updB s.allocB k (b / 2) (!(s.allocB k (b / 2))),
        freeL := updL s.freeL k ((s.freeL k).erase (BuddyAlloc.buddyOf b)),
        splitB := updB s.splitB (k + 1) (b / 2) false }
      A (k + 1) (b / 2) := by
  obtain ⟨⟨hleaf, wover, wnodup, wmem, wsplit⟩, wbits, wpend, wpendA, wlive,
    wdistinct, wavailP⟩ := hinv
  obtain ⟨hk, hbrange, hbexp, hbsplit, hbnf⟩ := wpend
  have hq : 2 * (b / 2) < 2 ^ (s.K - k) := by omega
  have hpow : 2 ^ (s.K - k) = 2 * 2 ^ (s.K - (k + 1)) := by
    rw [show s.K - k = (s.K - (k + 1)) + 1 from by omega, pow_succ]
    ring
  have hpair2 : (2 * (b / 2) = b ∧ 2 * (b / 2) + 1 = BuddyAlloc.buddyOf b)
      ∨ (2 * (b / 2) = BuddyAlloc.buddyOf b ∧ 2 * (b / 2) + 1 = b) := by
    unfold BuddyAlloc.buddyOf
    rcases Nat.even_or_odd b with ⟨t, rfl⟩ | ⟨t, rfl⟩
    · rw [if_pos (by omega : (t + t) % 2 = 0)]
      left
      omega
    · rw [if_neg (by omega : ¬(2 * t + 1) % 2 = 0)]
      right
      omega
  have hXor := (wbits k (b / 2) (by omega) hq).mp hv
  have hiub : BuddyAlloc.inUse s k b := ⟨hbrange, hbexp, hbnf⟩
  have hbbq : BuddyAlloc.buddyOf b / 2 = b / 2 := buddyOf_div_two b
  have hbbrange : BuddyAlloc.buddyOf b < 2 ^ (s.K - k) := by
    rcases hpair2 with ⟨h1, h2⟩ | ⟨h1, h2⟩ <;> omega
  have hbbexp : BuddyAlloc.exposed s k (BuddyAlloc.buddyOf b) :=
    BuddyAlloc.exposed_buddy hbbq.symm hbexp
  have hnx : ¬ BuddyAlloc.inUse s k (BuddyAlloc.buddyOf b) := by
    unfold Xor' at hXor
    rcases hpair2 with ⟨h1, h2⟩ | ⟨h1, h2⟩
    · rcases hXor with ⟨hp, hnq⟩ | ⟨hq2, hnp⟩
      · rw [h2] at hnq
        exact hnq
      · rw [h1] at hnp
        exact absurd hiub hnp
    · rcases hXor with ⟨hp, hnq⟩ | ⟨hq2, hnp⟩
      · rw [h2] at hnq
        exact absurd hiub hnq
      · rw [h1] at hnp
        exact hnp
  have hbbmem : BuddyAlloc.buddyOf b ∈ s.freeL k := by
    by_contra h
    exact hnx ⟨hbbrange, hbbexp, h⟩
  have hbbsplit : s.splitB k (BuddyAlloc.buddyOf b) = false :=
    (wmem k _ hbbmem).2.2
  have hsplitparent : s.splitB (k + 1) (b / 2) = true := by
    have h2 := hbexp (k + 1) (by omega) (by omega)
    rw [show k + 1 - k = 1 from by omega, pow_one] at h2
    exact h2
  have hparent_range : b / 2 < 2 ^ (s.K - (k + 1)) := by omega
  have hparent_nf : b / 2 ∉ s.freeL (k + 1) := by
    intro h
    have h2 := (wmem (k + 1) (b / 2) h).2.2
    rw [hsplitparent] at h2
    simp at h2
  set s3 : BuddyAlloc :=
    { s with
      allocB := updB s.allocB k (b / 2) (!(s.allocB k (b / 2))),
      freeL := updL s.freeL k ((s.freeL k).erase (BuddyAlloc.buddyOf b)),
      splitB := updB s.splitB (k + 1) (b / 2) false } with hs3def
  have hKeq3 : s3.K = s.K := rfl
  have hsplit3_at : s3.splitB (k + 1) (b / 2) = false :=
    updB_read_eq s.splitB (k + 1) (b / 2) false
  have hsplit3_k : ∀ x, s3.splitB k x = s.splitB k x := by
    intro x
    exact updB_read_ne _ _ _ _ _ _ (fun hc => absurd hc.1 (by omega))
  have hsplitpair : s.splitB k (2 * (b / 2)) = false
      ∧ s.splitB k (2 * (b / 2) + 1) = false := by
    rcases hpair2 with ⟨h1, h2⟩ | ⟨h1, h2⟩
    · rw [h2, h1]
      exact ⟨hbsplit, hbbsplit⟩
    · rw [h2, h1]
      exact ⟨hbbsplit, hbsplit⟩
  have hexp3 : ∀ k2 x, ¬(k2 < k + 1 ∧ x / 2 ^ (k + 1 - k2) = b / 2) →
      (BuddyAlloc.exposed s3 k2 x ↔ BuddyAlloc.exposed s k2 x) := by
    intro k2 x hx
    refine BuddyAlloc.exposed_congr hKeq3 ?_
    intro m hm1 hm2
    show updB s.splitB (k + 1) (b / 2) false m (x / 2 ^ (m - k2))
      = s.splitB m (x / 2 ^ (m - k2))
    refine updB_read_ne _ _ _ _ _ _ ?_
    rintro ⟨rfl, hanc⟩
    exact hx ⟨by omega, hanc⟩
  have hdesc : ∀ k2 x, k2 < k + 1 → x / 2 ^ (k + 1 - k2) = b / 2 →
      (k2 = k ∧ (x = 2 * (b / 2) ∨ x = 2 * (b / 2) + 1)) ∨
      (k2 < k ∧ (x / 2 ^ (k - k2) = 2 * (b / 2)
        ∨ x / 2 ^ (k - k2) = 2 * (b / 2) + 1)) := by
    intro k2 x hk2 hanc
    rcases Nat.eq_or_lt_of_le (Nat.le_of_lt_succ hk2) with he | hl
    · left
      rw [show k + 1 - k2 = 1 from by omega, pow_one] at hanc
      exact ⟨he, by omega⟩
    · right
      refine ⟨hl, ?_⟩
      have hsplit2 : k + 1 - k2 = (k - k2) + 1 := by omega
      have h3 : x / 2 ^ (k - k2) / 2 = b / 2 := by
        rw [Nat.div_div_eq_div_mul, ← pow_succ, ← hsplit2]
        exact hanc
      generalize x / 2 ^ (k - k2) = y at h3 ⊢
      omega
  have hdeepS : ∀ k2 x, k2 < k →
      (x / 2 ^ (k - k2) = 2 * (b / 2) ∨ x / 2 ^ (k - k2) = 2 * (b / 2) + 1) →
      ¬ BuddyAlloc.exposed s k2 x := by
    intro k2 x hk2 hanc
    rcases hanc with h2 | h2
    · exact BuddyAlloc.not_exposed_of_anc_unsplit hk2 hk h2 hsplitpair.1
    · exact BuddyAlloc.not_exposed_of_anc_unsplit hk2 hk h2 hsplitpair.2
  have hdeep3 : ∀ k2 x, k2 < k →
      (x / 2 ^ (k - k2) = 2 * (b / 2) ∨ x / 2 ^ (k - k2) = 2 * (b / 2) + 1) →
      ¬ BuddyAlloc.exposed s3 k2 x := by
    intro k2 x hk2 hanc
    rcases hanc with h2 | h2
    · exact BuddyAlloc.not_exposed_of_anc_unsplit hk2 hk h2
        (by rw [hsplit3_k]; exact hsplitpair.1)
    · exact BuddyAlloc.not_exposed_of_anc_unsplit hk2 hk h2
        (by rw [hsplit3_k]; exact hsplitpair.2)
  have hmemEq3 : ∀ k2 x, ¬(k2 = k ∧ x = BuddyAlloc.buddyOf b) →
      (x ∈ s3.freeL k2 ↔ x ∈ s.freeL k2) := by
    intro k2 x hne
    by_cases hk2 : k2 = k
    · subst hk2
      have hxbb : x ≠ BuddyAlloc.buddyOf b := fun he => hne ⟨rfl, he⟩
      show x ∈ updL s.freeL k2 ((s.freeL k2).erase (BuddyAlloc.buddyOf b)) k2
        ↔ _
      rw [updL_read_eq, (wnodup k2).mem_erase_iff]
      simp [hxbb]
    · show x ∈ updL s.freeL k ((s.freeL k).erase (BuddyAlloc.buddyOf b)) k2
        ↔ _
      rw [updL_read_ne _ _ _ _ hk2]
  have hiu3 : ∀ k2 x, ¬(k2 = k ∧ (x = 2 * (b / 2) ∨ x = 2 * (b / 2) + 1)) →
      (BuddyAlloc.inUse s3 k2 x ↔ BuddyAlloc.inUse s k2 x) := by
    intro k2 x hyp
    by_cases hnd : k2 < k + 1 ∧ x / 2 ^ (k + 1 - k2) = b / 2
    · rcases hdesc k2 x hnd.1 hnd.2 with ⟨hk2, hx⟩ | ⟨hk2, hx⟩
      · exact absurd ⟨hk2, hx⟩ hyp
      · constructor
        · intro h2
          exact absurd h2.2.1 (hdeep3 k2 x hk2 hx)
        · intro h2
          exact absurd h2.2.1 (hdeepS k2 x hk2 hx)
    · refine @BuddyAlloc.inUse_congr s s3 rfl k2 x (hexp3 k2 x hnd) ?_
      refine hmemEq3 k2 x ?_
      rintro ⟨rfl, rfl⟩
      rcases hpair2 with ⟨h1, h2⟩ | ⟨h1, h2⟩
      · exact hyp ⟨rfl, Or.inr h2.symm⟩
      · exact hyp ⟨rfl, Or.inl h1.symm⟩
  have hnotc3 : ¬ BuddyAlloc.exposed s3 k (2 * (b / 2)) :=
    BuddyAlloc.not_exposed_of_anc_unsplit (by omega)
      (show k + 1 ≤ s3.K from by change k + 1 ≤ s.K; omega)
      (by rw [show k + 1 - k = 1 from by omega, pow_one]
          exact two_mul_div_two _)
      hsplit3_at
  have hnotr3 : ¬ BuddyAlloc.exposed s3 k (2 * (b / 2) + 1) :=
    BuddyAlloc.not_exposed_of_anc_unsplit (by omega)
      (show k + 1 ≤ s3.K from by change k + 1 ≤ s.K; omega)
      (by rw [show k + 1 - k = 1 from by omega, pow_one]
          exact two_mul_add_one_div_two _)
      hsplit3_at
  have hpexp_s : BuddyAlloc.exposed s (k + 1) (b / 2) :=
    BuddyAlloc.exposed_parent hbexp
  have hpexp3 : BuddyAlloc.exposed s3 (k + 1) (b / 2) :=
    (hexp3 (k + 1) (b / 2) (by rintro ⟨h2, -⟩; omega)).mpr hpexp_s
  refine ⟨⟨hleaf, ?_, ?_, ?_, ?_⟩, ?_, ?_, ?_, ?_, ?_, ?_⟩
  · -- wover
    intro k2 hk2
    show updL s.freeL k ((s.freeL k).erase (BuddyAlloc.buddyOf b)) k2 = []
    rw [updL_read_ne _ _ _ _ (by change s.K < k2 at hk2; omega)]
    exact wover k2 hk2
  · -- wnodup
    intro k2
    show (updL s.freeL k ((s.freeL k).erase (BuddyAlloc.buddyOf b)) k2).Nodup
    by_cases hk2 : k2 = k
    · subst hk2
      rw [updL_read_eq]
      exact (wnodup k2).erase _
    · rw [updL_read_ne _ _ _ _ hk2]
      exact wnodup k2
  · -- wmem
    intro k2 x hx
    change x ∈ updL s.freeL k ((s.freeL k).erase (BuddyAlloc.buddyOf b)) k2
      at hx
    by_cases hk2 : k2 = k
    · subst hk2
      rw [updL_read_eq] at hx
      have hxold : x ∈ s.freeL k2 := List.mem_of_mem_erase hx
      have hxbb : x ≠ BuddyAlloc.buddyOf b :=
        ((wnodup k2).mem_erase_iff.mp hx).1
      obtain ⟨m1, m2, m3⟩ := wmem k2 x hxold
      have hxpair : ¬(x = 2 * (b / 2) ∨ x = 2 * (b / 2) + 1) := by
        rcases hpair2 with ⟨h1, h2⟩ | ⟨h1, h2⟩
        · rintro (hx3 | hx3)
          · rw [hx3, h1] at hxold
            exact hbnf hxold
          · exact hxbb (hx3.trans h2)
        · rintro (hx3 | hx3)
          · exact hxbb (hx3.trans h1)
          · rw [hx3, h2] at hxold
            exact hbnf hxold
      have hguard : ¬(k2 < k2 + 1 ∧ x / 2 ^ (k2 + 1 - k2) = b / 2) := by
        rintro ⟨-, hanc⟩
        rw [show k2 + 1 - k2 = 1 from by omega, pow_one] at hanc
        exact hxpair (by omega)
      refine ⟨m1, (hexp3 k2 x hguard).mpr m2, ?_⟩
      rw [hsplit3_k]
      exact m3
    · rw [updL_read_ne _ _ _ _ hk2] at hx
      obtain ⟨m1, m2, m3⟩ := wmem k2 x hx
      have hguard : ¬(k2 < k + 1 ∧ x / 2 ^ (k + 1 - k2) = b / 2) := by
        rintro ⟨hlt, hanc⟩
        rcases hdesc k2 x hlt hanc with ⟨he, -⟩ | ⟨hlt2, hx2⟩
        · exact hk2 he
        · exact hdeepS k2 x hlt2 hx2 m2
      refine ⟨m1, (hexp3 k2 x hguard).mpr m2, ?_⟩
      show updB s.splitB (k + 1) (b / 2) false k2 x = false
      by_cases hc : k2 = k + 1 ∧ x = b / 2
      · obtain ⟨rfl, rfl⟩ := hc
        exact updB_read_eq _ _ _ _
      · rw [updB_read_ne _ _ _ _ _ _ hc]
        exact m3
  · -- wsplit
    intro k2 x hx
    change updB s.splitB (k + 1) (b / 2) false k2 x = true at hx
    by_cases hc : k2 = k + 1 ∧ x = b / 2
    · obtain ⟨rfl, rfl⟩ := hc
      rw [updB_read_eq] at hx
      simp at hx
    · rw [updB_read_ne _ _ _ _ _ _ hc] at hx
      obtain ⟨m1, m2, m3, m4⟩ := wsplit k2 x hx
      refine ⟨m1, m2, m3, ?_⟩
      have hguard : ¬(k2 < k + 1 ∧ x / 2 ^ (k + 1 - k2) = b / 2) := by
        rintro ⟨hlt, hanc⟩
        rcases hdesc k2 x hlt hanc with ⟨rfl, hx2⟩ | ⟨hlt2, hx2⟩
        · rcases hx2 with rfl | rfl
          · rw [hsplitpair.1] at hx
            simp at hx
          · rw [hsplitpair.2] at hx
            simp at hx
        · exact hdeepS k2 x hlt2 hx2 m4
      exact (hexp3 k2 x hguard).mpr m4
  · -- wbits
    intro k2 q hk2 hq2
    change k2 ≤ s.K at hk2
    change 2 * q < 2 ^ (s.K - k2) at hq2
    have hbit : s3.allocB k2 q
        = updB s.allocB k (b / 2) (!(s.allocB k (b / 2))) k2 q := rfl
    by_cases hpairq : k2 = k ∧ q = b / 2
    · obtain ⟨rfl, rfl⟩ := hpairq
      rw [hbit, updB_read_eq, hv]
      refine iff_of_false (by simp) ?_
      unfold Xor'
      rintro (⟨ha, -⟩ | ⟨ha, -⟩)
      · exact hnotc3 ha.2.1
      · exact hnotr3 ha.2.1
    · rw [hbit, updB_read_ne _ _ _ _ _ _ hpairq]
      have hA := hiu3 k2 (2 * q) (by
        rintro ⟨rfl, hx | hx⟩
        · exact hpairq ⟨rfl, by omega⟩
        · omega)
      have hB := hiu3 k2 (2 * q + 1) (by
        rintro ⟨rfl, hx | hx⟩
        · omega
        · exact hpairq ⟨rfl, by omega⟩)
      rw [hA, hB]
      exact wbits k2 q hk2 hq2
  · -- wpend: the parent is now the pending block
    refine ⟨by change k + 1 ≤ s.K; omega,
      hparent_range, hpexp3, hsplit3_at, ?_⟩
    show b / 2 ∉ updL s.freeL k ((s.freeL k).erase (BuddyAlloc.buddyOf b))
      (k + 1)
    rw [updL_read_ne _ _ _ _ (by omega)]
    exact hparent_nf
  · -- wpendA
    have hbo : BuddyAlloc.blockOf s3 = BuddyAlloc.blockOf s := rfl
    rw [hbo]
    intro hmem
    simp only [List.mem_map] at hmem
    obtain ⟨pn, hpn, hpneq⟩ := hmem
    have l5 := (wlive pn hpn).2.2.2.2.1
    rw [hpneq] at l5
    exact absurd (show s.splitB (k + 1) (b / 2) = false from l5)
      (by rw [hsplitparent]; simp)
  · -- wlive
    intro pn hpn
    obtain ⟨l1, l2, l3, l4, l5, l6⟩ := wlive pn hpn
    have hguard : ¬((BuddyAlloc.blockOf s pn).1 < k + 1 ∧
        (BuddyAlloc.blockOf s pn).2
          / 2 ^ (k + 1 - (BuddyAlloc.blockOf s pn).1) = b / 2) := by
      rintro ⟨hlt, hanc⟩
      rcases hdesc _ _ hlt hanc with ⟨hke, hx2⟩ | ⟨hlt2, hx2⟩
      · rcases hpair2 with ⟨h1, h2⟩ | ⟨h1, h2⟩
        · rcases hx2 with hx3 | hx3
          · apply wpendA
            simp only [List.mem_map]
            exact ⟨pn, hpn,
              Prod.ext hke (show (BuddyAlloc.blockOf s pn).2 = b from
                by rw [hx3]; exact h1)⟩
          · apply l6
            rw [hke, hx3, h2]
            exact hbbmem
        · rcases hx2 with hx3 | hx3
          · apply l6
            rw [hke, hx3, h1]
            exact hbbmem
          · apply wpendA
            simp only [List.mem_map]
            exact ⟨pn, hpn,
              Prod.ext hke (show (BuddyAlloc.blockOf s pn).2 = b from
                by rw [hx3]; exact h2)⟩
      · exact hdeepS _ _ hlt2 hx2 l4
    refine ⟨l1, l2, l3, (hexp3 _ _ hguard).mpr l4, ?_, ?_⟩
    · show updB s.splitB (k + 1) (b / 2) false (BuddyAlloc.blockOf s pn).1
        (BuddyAlloc.blockOf s pn).2 = false
      by_cases hc : (BuddyAlloc.blockOf s pn).1 = k + 1 ∧
          (BuddyAlloc.blockOf s pn).2 = b / 2
      · rw [hc.1, hc.2]
        exact updB_read_eq _ _ _ _
      · rw [updB_read_ne _ _ _ _ _ _ hc]
        exact l5
    · show (BuddyAlloc.blockOf s pn).2 ∉
        updL s.freeL k ((s.freeL k).erase (BuddyAlloc.buddyOf b))
          (BuddyAlloc.blockOf s pn).1
      by_cases hc : (BuddyAlloc.blockOf s pn).1 = k
      · rw [hc, updL_read_eq]
        intro hmem
        apply l6
        rw [hc]
        exact List.mem_of_mem_erase hmem
      · rw [updL_read_ne _ _ _ _ hc]
        exact l6
  · -- wdistinct
    have hbo : BuddyAlloc.blockOf s3 = BuddyAlloc.blockOf s := rfl
    rw [hbo]
    exact wdistinct
  · -- accounting: the vanished buddy pays for the bigger pending block
    have hlen : (s.freeL k).length
        = ((s.freeL k).erase (BuddyAlloc.buddyOf b)).length + 1 := by
      rw [List.length_erase_of_mem hbbmem]
      have h2 : 0 < (s.freeL k).length := List.length_pos_of_mem hbbmem
      omega
    have havail := BuddyAlloc.avail_updL s k
      ((s.freeL k).erase (BuddyAlloc.buddyOf b)) hk
    rw [hlen] at havail
    have hmul : (((s.freeL k).erase (BuddyAlloc.buddyOf b)).length + 1)
          * (s.leaf * 2 ^ k)
        = ((s.freeL k).erase (BuddyAlloc.buddyOf b)).length
            * (s.leaf * 2 ^ k) + s.leaf * 2 ^ k := by ring
    rw [hmul] at havail
    have hSZ : s.leaf * 2 ^ (k + 1) = 2 * (s.leaf * 2 ^ k) := by
      rw [pow_succ]
      ring
    change BuddyAlloc.available_bytes
        { s with
          freeL := updL s.freeL k ((s.freeL k).erase (BuddyAlloc.buddyOf b)) }
      + BuddyAlloc.liveBytes s A + s.leaf * 2 ^ (k + 1) = s.leaf * 2 ^ s.K
    omega

/-- `freeLoop` run with exactly `s.K - k` fuel restores full
well-formedness from the pending-block state. -/
theorem BuddyAlloc.freeLoop_BInv : ∀ (m : Nat) (s : BuddyAlloc)
    (A : List (Nat × Nat)) (k b : Nat), k + m = s.K →
    BuddyAlloc.FInv s A k b →
    BuddyAlloc.BInv (BuddyAlloc.freeLoop s k b m) A := by
  intro m
  induction m with
  | zero =>
    intro s A k b hkm hinv
    rw [BuddyAlloc.freeLoop]
    exact BuddyAlloc.FInv_finish hinv
  | succ m ih =>
    intro s A k b hkm hinv
    rw [BuddyAlloc.freeLoop]
    dsimp only
    rw [updB_read_eq]
    rcases Bool.eq_false_or_eq_true (s.allocB k (b / 2)) with hv | hv
    · rw [if_pos (by rw [hv]; rfl)]
      exact ih _ A (k + 1) (b / 2) (by change k + 1 + m = s.K; omega)
        (BuddyAlloc.FInv_merge hinv (by omega) hv)
    · rw [if_neg (by rw [hv]; simp)]
      exact BuddyAlloc.FInv_finish hinv

/-- A list of live allocations is a permutation of any member consed onto
the list with that member erased. -/
theorem perm_cons_erase_entry : ∀ (A : List (Nat × Nat)) (a : Nat × Nat),
    a ∈ A → A.Perm (a :: A.erase a) := by
  intro A
  induction A with
  | nil => intro a ha; cases ha
  | cons x t ih =>
    intro a ha
    by_cases hxa : x = a
    · subst hxa
      rw [List.erase_cons_head]
    · rw [List.erase_cons_tail (by simp [hxa])]
      have hat : a ∈ t := by
        rcases List.mem_cons.mp ha with he | h2
        · exact absurd he.symm hxa
        · exact h2
      exact ((ih a hat).cons x).trans (List.Perm.swap a x _)

/-- `deallocate` of a live allocation, with the layout recorded at
allocation, preserves well-formedness and removes the entry. -/
theorem BuddyAlloc.deallocate_BInv {s : BuddyAlloc} {A : List (Nat × Nat)}
    {p n : Nat} (hinv : BuddyAlloc.BInv s A) (hmem : (p, n) ∈ A) :
    BuddyAlloc.BInv (s.deallocate p n) (A.erase (p, n)) := by
  obtain ⟨hcore, wbits, wlive, wdistinct, wavail⟩ := hinv
  obtain ⟨l1, l2, l3, l4, l5, l6⟩ := wlive (p, n) hmem
  have hk0 : BuddyAlloc.reqK s.leaf n ≤ s.K := l1
  have hperm : A.Perm ((p, n) :: A.erase (p, n)) :=
    perm_cons_erase_entry A (p, n) hmem
  have hmapperm : (A.map (BuddyAlloc.blockOf s)).Perm
      (BuddyAlloc.blockOf s (p, n)
        :: (A.erase (p, n)).map (BuddyAlloc.blockOf s)) := by
    have h2 := hperm.map (BuddyAlloc.blockOf s)
    simpa using h2
  have hnd2 : (BuddyAlloc.blockOf s (p, n)
      :: (A.erase (p, n)).map (BuddyAlloc.blockOf s)).Nodup :=
    hmapperm.nodup_iff.mp wdistinct
  have hlb : BuddyAlloc.liveBytes s A
      = s.leaf * 2 ^ BuddyAlloc.reqK s.leaf n
        + BuddyAlloc.liveBytes s (A.erase (p, n)) := by
    unfold BuddyAlloc.liveBytes
    rw [(hperm.map _).sum_eq, List.map_cons, List.sum_cons]
    rfl
  exact BuddyAlloc.freeLoop_BInv (s.K - BuddyAlloc.reqK s.leaf n) s
    (A.erase (p, n)) (BuddyAlloc.reqK s.leaf n)
    ((p - s.mstart) / (s.leaf * 2 ^ BuddyAlloc.reqK s.leaf n))
    (by omega)
    ⟨hcore, wbits, ⟨hk0, l2, l4, l5, l6⟩, (List.nodup_cons.mp hnd2).1,
      fun pn hpn => wlive pn (List.mem_of_mem_erase hpn),
      (List.nodup_cons.mp hnd2).2, by omega⟩

/-- `freeLoop` never changes the region's geometry. -/
theorem BuddyAlloc.freeLoop_fields : ∀ (m : Nat) (s : BuddyAlloc) (k b : Nat),
    (BuddyAlloc.freeLoop s k b m).K = s.K ∧
    (BuddyAlloc.freeLoop s k b m).leaf = s.leaf ∧
    (BuddyAlloc.freeLoop s k b m).mstart = s.mstart := by
  intro m
  induction m with
  | zero =>
    intro s k b
    rw [BuddyAlloc.freeLoop]
    exact ⟨rfl, rfl, rfl⟩
  | succ m ih =>
    intro s k b
    rw [BuddyAlloc.freeLoop]
    dsimp only
    split
    · exact ih _ _ _
    · exact ⟨rfl, rfl, rfl⟩

/-- `allocate` never changes the region's geometry. -/
theorem BuddyAlloc.allocate_fields (s : BuddyAlloc) (n : Nat) :
    (s.allocate n).2.K = s.K ∧ (s.allocate n).2.leaf = s.leaf ∧
    (s.allocate n).2.mstart = s.mstart := by
  by_cases hK : s.K < BuddyAlloc.reqK s.leaf n
  · have he : s.allocate n = (none, s) := by
      unfold BuddyAlloc.allocate
      dsimp only
      rw [if_pos hK]
    rw [he]
    exact ⟨rfl, rfl, rfl⟩
  cases hfj : BuddyAlloc.findJ s (BuddyAlloc.reqK s.leaf n) with
  | none =>
    have he : s.allocate n = (none, s) := by
      unfold BuddyAlloc.allocate
      dsimp only
      rw [if_neg hK, hfj]
    rw [he]
    exact ⟨rfl, rfl, rfl⟩
  | some j =>
    have hfind := List.find?_some hfj
    have hjprop : BuddyAlloc.reqK s.leaf n ≤ j ∧ s.freeL j ≠ [] :=
      of_decide_eq_true hfind
    cases hfl : s.freeL j with
    | nil => exact absurd hfl hjprop.2
    | cons b rest =>
      rw [BuddyAlloc.allocate_success_case hK hfj hfl]
      have hf := BuddyAlloc.splitLoop_fields (j - BuddyAlloc.reqK s.leaf n)
        { s with freeL := updL s.freeL j rest } (BuddyAlloc.reqK s.leaf n) b
      exact ⟨hf.1, hf.2.1, hf.2.2⟩

/-- `deallocate` never changes the region's geometry. -/
theorem BuddyAlloc.deallocate_fields (s : BuddyAlloc) (p n : Nat) :
    (s.deallocate p n).K = s.K ∧ (s.deallocate p n).leaf = s.leaf ∧
    (s.deallocate p n).mstart = s.mstart :=
  BuddyAlloc.freeLoop_fields (s.K - BuddyAlloc.reqK s.leaf n) s
    (BuddyAlloc.reqK s.leaf n)
    ((p - s.mstart) / (s.leaf * 2 ^ BuddyAlloc.reqK s.leaf n))

/-- Every reachable buddy state is well-formed, with unchanged geometry. -/
theorem ReachB_inv {base len leaf : Nat} (hleaf : 0 < leaf) :
    ∀ {s : BuddyAlloc} {A : List (Nat × Nat)},
    ReachB base len leaf s A →
    BuddyAlloc.BInv s A ∧ s.K = (BuddyAlloc.new base len leaf).K ∧
    s.leaf = leaf := by
  intro s A h
  induction h with
  | init => exact ⟨BuddyAlloc.new_BInv base len leaf hleaf, rfl, rfl⟩
  | alloc s A n hr ih =>
    obtain ⟨hinv, h1, h2⟩ := ih
    have hf := BuddyAlloc.allocate_fields s n
    exact ⟨BuddyAlloc.allocate_BInv hinv n, by rw [hf.1, h1],
      by rw [hf.2.1, h2]⟩
  | dealloc s A p n hr hmem ih =>
    obtain ⟨hinv, h1, h2⟩ := ih
    have hf := BuddyAlloc.deallocate_fields s p n
    exact ⟨BuddyAlloc.deallocate_BInv hinv hmem, by rw [hf.1, h1],
      by rw [hf.2.1, h2]⟩

/-- C6: coalescing completeness.  For every sequence of buddy-region
`allocate` and `deallocate` calls in which every deallocation passes the
pointer and size of a live allocation (the layout used at allocation),
once every outstanding allocation has been deallocated (the live list is
empty), `available_bytes` equals its value immediately after
construction: all splits coalesce back. -/
theorem BuddyAlloc.coalescing_complete {base len leaf : Nat}
    {s : BuddyAlloc} (hleaf : 0 < leaf)
    (h : ReachB base len leaf s []) :
    s.available_bytes = (BuddyAlloc.new base len leaf).available_bytes := by
  obtain ⟨hinv, h1, h2⟩ := ReachB_inv hleaf h
  have hava := hinv.wavail
  have hlb : BuddyAlloc.liveBytes s [] = 0 := rfl
  rw [hlb, h2, h1] at hava
  rw [BuddyAlloc.available_new]
  omega

/-- C6 witness: on a 64-byte heap with 16-byte leaves, allocating 16 bytes
(returning address 32) and freeing it restores `available_bytes`. -/
theorem BuddyAlloc.coalescing_complete_witness :
    0 < 16 ∧
    ((((BuddyAlloc.new 0 64 16).allocate 16).2.deallocate 32 16).available_bytes
      = (BuddyAlloc.new 0 64 16).available_bytes) := by
  refine ⟨by decide, ?_⟩
  have h0 : ReachB 0 64 16 (BuddyAlloc.new 0 64 16) [] := ReachB.init
  have h1 := ReachB.alloc _ [] 16 h0
  have h2 := ReachB.dealloc _ _ 32 16 h1 (by decide)
  exact BuddyAlloc.coalescing_complete (by decide) h2

end BuddyInvariant

end BuddyAllocProof
